import Mathlib

/-!
Verification of the natural-language specification of the
`deadlock-simulation` repository against a shallow embedding of its code.

The embedding follows the Python sources:
  * `fs_deadlock_sim/models.py`      → `ProcessState`, `Resource`, `Process`
  * `fs_deadlock_sim/lock_manager.py`→ `lmRequest`, `lmReleaseAll`, `LMOp`
  * `fs_deadlock_sim/deadlock_detector.py`
                                     → `buildWFG`, `dfs`, `find_cycle`,
                                       `detect_deadlock`
  * `fs_deadlock_sim/simulator.py`   → `stepSim`, `runSim`
  * `core/worker.py`                 → `WorkerState`, `record_end`,
                                       `build_request`, `retryTrace`

Python dictionaries are modelled as association lists (first match wins, as
`dict` keys are unique), Python sets as lists with membership semantics, and
machine floats as rationals.  Operations that can raise (`KeyError` on a
missing dictionary key, `ValueError` from `randrange(0)`) return `Option`,
with `none` standing for the raised exception.  Python truthiness tests on
optional strings (`if process.current_request:`) are modelled by `truthy`.
-/

namespace DeadlockSim

/-- The four process states of `models.ProcessState`. -/
inductive ProcessState where
  | RUNNING
  | BLOCKED
  | DEADLOCKED
  | FINISHED
deriving DecidableEq, Repr

/-- `models.Resource`: an identifier and an optional holder pid. -/
structure Resource where
  rid : String
  held_by : Option String := none
deriving DecidableEq, Repr

/-- `models.Process`: pid, ordered plan, held set, pending request, state. -/
structure Process where
  pid : String
  plan : List String
  held_resources : List String := []
  current_request : Option String := none
  state : ProcessState := .RUNNING
  waiting_steps : Nat := 0
deriving DecidableEq, Repr

/-- Python truthiness of an `Optional[str]`: `None` and `""` are falsy. -/
def truthy : Option String → Bool
  | none => false
  | some s => s ≠ ""

/-- `Process.next_request` from `models.py`: `None` for a terminal or blocked
state; otherwise the lexicographically smallest unheld plan resource in
`ordered` mode (`sorted(remaining)[0]`) or the first unheld plan resource in
declared order in `naive` mode. -/
def nextRequest (p : Process) (ordered_mode : Bool) : Option String :=
  if p.state = .BLOCKED ∨ p.state = .DEADLOCKED ∨ p.state = .FINISHED then
    none
  else
    let remaining := p.plan.filter (fun r => ¬ r ∈ p.held_resources)
    if remaining = [] then none
    else if ordered_mode then (remaining.insertionSort (· ≤ ·)).head?
    else p.plan.find? (fun r => ¬ r ∈ p.held_resources)

/-- `Process.has_all_resources`. -/
def hasAllResources (p : Process) : Bool :=
  p.plan.all (fun r => r ∈ p.held_resources)

/-- `Process.mark_blocked`. -/
def markBlocked (p : Process) (resource_id : String) : Process :=
  { p with state := .BLOCKED, current_request := some resource_id }

/-- `Process.mark_deadlocked`. -/
def markDeadlockedProc (p : Process) : Process :=
  { p with state := .DEADLOCKED }

/-- Lookup in the simulator's resource dictionary `{r.rid: r}`:
first entry whose `rid` matches. -/
def findRes (resources : List Resource) (rid : String) : Option Resource :=
  resources.find? (fun r => r.rid = rid)

/-- Overwrite the `held_by` field of the entry keyed `rid` (mutation of the
dictionary value object in the Python source). -/
def setHeldBy (resources : List Resource) (rid : String) (h : Option String) :
    List Resource :=
  resources.map (fun r => if r.rid = rid then { r with held_by := h } else r)

/-- `LockManager.request`: returns the updated process, updated resources and
the boolean result; `none` models the `KeyError` on a missing resource id. -/
def lmRequest (proc : Process) (resources : List Resource) (resource_id : String) :
    Option (Process × List Resource × Bool) :=
  match findRes resources resource_id with
  | none => none
  | some resource =>
    if resource.held_by = none then
      some ({ proc with
                held_resources := proc.held_resources.insert resource_id,
                state := .RUNNING,
                current_request := none },
            setHeldBy resources resource_id (some proc.pid), true)
    else if resource.held_by = some proc.pid then
      some (proc, resources, true)
    else
      some (markBlocked proc resource_id, resources, false)

/-- `LockManager.release_all`: clears `held_by` of every resource the process
holds (when that resource records the process as holder), empties the held
set, clears the pending request and marks the process `FINISHED`; `none`
models the `KeyError` when a held id is absent from the dictionary. -/
def lmReleaseAll (proc : Process) (resources : List Resource) :
    Option (Process × List Resource) :=
  if proc.held_resources.all (fun rid => (findRes resources rid).isSome) then
    some ({ proc with
              held_resources := [],
              current_request := none,
              state := .FINISHED },
          resources.map (fun r =>
            if r.rid ∈ proc.held_resources ∧ r.held_by = some proc.pid then
              { r with held_by := none }
            else r))
  else none

/-! ## Wait-for graph and cycle discovery (`deadlock_detector.py`) -/

/-- A wait-for graph: association list from pid to its successor set,
in dictionary insertion order. -/
abbrev WFGraph := List (String × List String)

/-- Python `graph.get(node, set())`. -/
def adj (g : WFGraph) (u : String) : List String :=
  match g.find? (fun e => e.1 = u) with
  | some e => e.2
  | none => []

/-- `graph.setdefault(u, set()).add(v)`: add `v` to `u`'s successor set,
appending a fresh key at the end when absent. -/
def addEdge (g : WFGraph) (u v : String) : WFGraph :=
  match g.find? (fun e => e.1 = u) with
  | some _ => g.map (fun e => if e.1 = u then (e.1, e.2.insert v) else e)
  | none => g ++ [(u, [v])]

/-- `DeadlockDetector.build_wait_for_graph`, folded over the process list with
the accumulated graph; `none` models the `KeyError` when a blocked process
requests an id absent from the resource dictionary. -/
def buildWFGAux : List Process → List Resource → WFGraph → Option WFGraph
  | [], _, g => some g
  | p :: ps, resources, g =>
    if p.state = .BLOCKED ∧ truthy p.current_request then
      match p.current_request with
      | none => buildWFGAux ps resources g
      | some req =>
        match findRes resources req with
        | none => none
        | some resource =>
          match resource.held_by with
          | none => buildWFGAux ps resources g
          | some holder =>
            if holder ≠ "" ∧ holder ≠ p.pid then
              buildWFGAux ps resources (addEdge g p.pid holder)
            else
              buildWFGAux ps resources g
    else buildWFGAux ps resources g

/-- `DeadlockDetector.build_wait_for_graph`. -/
def buildWFG (processes : List Process) (resources : List Resource) :
    Option WFGraph :=
  buildWFGAux processes resources []

/-- The edge relation of a wait-for graph. -/
def Edge (g : WFGraph) (u v : String) : Prop :=
  v ∈ adj g u

instance (g : WFGraph) (u v : String) : Decidable (Edge g u v) := by
  unfold Edge; infer_instance

/-- A graph has a cycle when some node reaches itself by one or more edges. -/
def HasCycle (g : WFGraph) : Prop :=
  ∃ v, Relation.TransGen (Edge g) v v

/-- The inner neighbour loop of `DeadlockDetector._find_cycle.dfs`.
`rec` is the recursive `dfs` call one level deeper.  For a neighbour already
on the current path (Python's `stack`, which always holds exactly the
elements of `path`) it returns `path[path.index(neighbor):] + [neighbor]`. -/
def dfsVisit (rec : String → List String → List String →
    Option (List String) × List String) :
    List String → List String → List String →
    Option (List String) × List String
  | [], visited, _ => (none, visited)
  | n :: rest, visited, path =>
    if n ∈ visited then
      if n ∈ path then
        (some (path.dropWhile (fun x => x ≠ n) ++ [n]), visited)
      else dfsVisit rec rest visited path
    else
      match rec n visited path with
      | (some c, v) => (some c, v)
      | (none, v) => dfsVisit rec rest v path

/-- The recursive `dfs` of `_find_cycle`: marks the node visited, appends it
to the path and scans its neighbours.  The `fuel` argument is a termination
device absent from the source; `find_cycle` supplies enough fuel for it never
to be exhausted (`dfs` recurses only into unvisited nodes). -/
def dfs (g : WFGraph) : Nat → String → List String → List String →
    Option (List String) × List String
  | 0, _, visited, _ => (none, visited)
  | fuel + 1, node, visited, path =>
    dfsVisit (dfs g fuel) (adj g node) (node :: visited) (path ++ [node])

/-- Every node mentioned by the graph (keys and successor sets). -/
def allNodes (g : WFGraph) : List String :=
  g.foldr (fun e acc => e.1 :: (e.2 ++ acc)) []

/-- Fuel bound handed to `dfs`: strictly more than the number of nodes. -/
def fuelBound (g : WFGraph) : Nat :=
  (allNodes g).length + 1

/-- The top-level loop of `_find_cycle` over the graph's keys, threading the
persistent `visited` set. -/
def findCycleLoop (g : WFGraph) : List String → List String →
    Option (List String)
  | [], _ => none
  | k :: ks, visited =>
    if k ∈ visited then findCycleLoop g ks visited
    else
      match dfs g (fuelBound g) k visited [] with
      | (some c, _) => some c
      | (none, visited') => findCycleLoop g ks visited'

/-- `DeadlockDetector._find_cycle`. -/
def find_cycle (g : WFGraph) : Option (List String) :=
  findCycleLoop g (g.map (fun e => e.1)) []

/-- `DeadlockDetector.detect_deadlock`: `(cycle is not None, edges, cycle or [])`. -/
def detect_deadlock (processes : List Process) (resources : List Resource) :
    Option (Bool × List (String × String) × List String) :=
  match buildWFG processes resources with
  | none => none
  | some graph =>
    let edges := graph.foldr (fun e acc => (e.2.map (fun v => (e.1, v))) ++ acc) []
    let cycle := find_cycle graph
    some (cycle.isSome, edges, cycle.getD [])

/-! ## Simulator state and step loop (`simulator.py`) -/

/-- The mutable state of a `Simulator` (and of a `LockManager` session):
the process list and the resource dictionary `{r.rid: r}`. -/
structure SimState where
  processes : List Process
  resources : List Resource
deriving DecidableEq, Repr

/-- Predicate: every resource id the process mentions (plan, pending
request, held set) is a key of the resource dictionary. -/
def WfProc (resources : List Resource) (p : Process) : Prop :=
  (∀ r ∈ p.plan, (findRes resources r).isSome = true) ∧
  (∀ r, p.current_request = some r → (findRes resources r).isSome = true) ∧
  (∀ r ∈ p.held_resources, (findRes resources r).isSome = true)

/-- Predicate: every resource id any process mentions is a key of the
resource dictionary.  Configurations outside it raise `KeyError` in the
Python source. -/
def WfState (s : SimState) : Prop :=
  ∀ p ∈ s.processes, WfProc s.resources p

instance (rs : List Resource) (p : Process) : Decidable (WfProc rs p) := by
  unfold WfProc; infer_instance

instance (s : SimState) : Decidable (WfState s) := by
  unfold WfState; infer_instance

/-- One process's turn in the first sweep of `Simulator.step`. -/
def stepProcessAt (ordered : Bool) (s : SimState) (i : Nat) : Option SimState :=
  match s.processes.get? i with
  | none => some s
  | some proc =>
    if proc.state = .DEADLOCKED ∨ proc.state = .FINISHED then some s
    else if proc.state = .BLOCKED ∧ truthy proc.current_request then
      match proc.current_request with
      | none => some s
      | some rid =>
        (lmRequest proc s.resources rid).map (fun r =>
          { processes := s.processes.set i r.1, resources := r.2.1 })
    else if proc.state = .RUNNING then
      if hasAllResources proc then
        (lmReleaseAll proc s.resources).map (fun r =>
          { processes := s.processes.set i r.1, resources := r.2 })
      else
        match nextRequest proc ordered with
        | some target =>
          if target ≠ "" then
            (lmRequest proc s.resources target).map (fun r =>
              { processes := s.processes.set i r.1, resources := r.2.1 })
          else some s
        | none => some s
    else some s

/-- One process's turn in the second sweep of `Simulator.step`: complete any
running process that now holds its full plan. -/
def completeSweepAt (s : SimState) (i : Nat) : Option SimState :=
  match s.processes.get? i with
  | none => some s
  | some proc =>
    if proc.state = .RUNNING ∧ hasAllResources proc then
      (lmReleaseAll proc s.resources).map (fun r =>
        { processes := s.processes.set i r.1, resources := r.2 })
    else some s

/-- Sequential sweep over process indices, threading the state. -/
def sweepM (f : SimState → Nat → Option SimState) : SimState → List Nat →
    Option SimState
  | s, [] => some s
  | s, i :: is =>
    match f s i with
    | none => none
    | some s' => sweepM f s' is

/-- `Simulator._process_by_id` followed by `mark_deadlocked`: transition the
first process with the given pid to `DEADLOCKED` (no-op when absent). -/
def markPid : List Process → String → List Process
  | [], _ => []
  | p :: ps, pid =>
    if p.pid = pid then markDeadlockedProc p :: ps else p :: markPid ps pid

/-- Mark every pid of the reported cycle deadlocked, in cycle order. -/
def markCycle (ps : List Process) (cycle : List String) : List Process :=
  cycle.foldl markPid ps

/-- Python `all(p.state == ProcessState.FINISHED for p in self.processes)`. -/
def allFinished (s : SimState) : Bool :=
  s.processes.all (fun p => p.state = .FINISHED)

/-- `Simulator.step`: both sweeps, deadlock detection, and the transition of
cycle members to `DEADLOCKED`; returns the deadlock flag.  (The metrics
collector, whose source lives outside `src/`, only records counters per the
spec and is omitted: it does not touch processes or resources.) -/
def stepSim (ordered : Bool) (s : SimState) : Option (SimState × Bool) :=
  match sweepM (stepProcessAt ordered) s (List.range s.processes.length) with
  | none => none
  | some s1 =>
    match sweepM completeSweepAt s1 (List.range s1.processes.length) with
    | none => none
    | some s2 =>
      match detect_deadlock s2.processes s2.resources with
      | none => none
      | some r =>
        if r.1 then
          some ({ s2 with processes := markCycle s2.processes r.2.2 }, true)
        else some (s2, false)

/-- The loop of `Simulator.run`: advance up to `max_steps` steps, stopping
after the first step that reports deadlock or leaves every process
`FINISHED`.  Returns the final state and the number of executed steps. -/
def runSim (ordered : Bool) : SimState → Nat → Option (SimState × Nat)
  | s, 0 => some (s, 0)
  | s, n + 1 =>
    match stepSim ordered s with
    | none => none
    | some (s', d) =>
      if d = true ∨ allFinished s' = true then some (s', 1)
      else
        match runSim ordered s' n with
        | none => none
        | some (sf, k) => some (sf, k + 1)

/-- The simulator trajectory: the state after `n` executed steps, ignoring
stop conditions. -/
def trajSim (ordered : Bool) : SimState → Nat → Option SimState
  | s, 0 => some s
  | s, n + 1 =>
    match stepSim ordered s with
    | none => none
    | some r => trajSim ordered r.1 n

/-- Whether the run-loop stop condition (deadlock reported, or every process
`FINISHED`) holds right after executing step `n` of the trajectory. -/
def stopAfter (ordered : Bool) (s : SimState) (n : Nat) : Option Bool :=
  match trajSim ordered s n with
  | none => none
  | some x => (stepSim ordered x).map (fun r => r.2 || allFinished r.1)

/-- State-passing wrapper around the detector as invoked by `Simulator.step`:
the detector only reads the processes and resources handed to it. -/
def detectDeadlockS (s : SimState) :
    Option ((Bool × List (String × String) × List String) × SimState) :=
  (detect_deadlock s.processes s.resources).map (fun r => (r, s))

/-! ## Lock-manager operation sequences (claim C7) -/

/-- Replace the first process carrying the given pid. -/
def updateFirstPid : List Process → String → Process → List Process
  | [], _, _ => []
  | p :: ps, pid, p' =>
    if p.pid = pid then p' :: ps else p :: updateFirstPid ps pid p'

/-- An observable `LockManager` call: `request(process, rid, t)` or
`release_all(process, t)`, the process named by pid. -/
inductive LMOp where
  | requestOp (pid rid : String)
  | releaseAllOp (pid : String)
deriving DecidableEq, Repr

/-- Apply one lock-manager call to the state; `none` models a `KeyError`
(or an op naming a pid that is not in the state, which the Python API cannot
express since callers pass process objects). -/
def lmApply (s : SimState) : LMOp → Option SimState
  | .requestOp pid rid =>
    match s.processes.find? (fun p => p.pid = pid) with
    | none => none
    | some proc =>
      (lmRequest proc s.resources rid).map (fun r =>
        { processes := updateFirstPid s.processes pid r.1, resources := r.2.1 })
  | .releaseAllOp pid =>
    match s.processes.find? (fun p => p.pid = pid) with
    | none => none
    | some proc =>
      (lmReleaseAll proc s.resources).map (fun r =>
        { processes := updateFirstPid s.processes pid r.1, resources := r.2 })

/-- Run a sequence of lock-manager calls. -/
def lmRun : SimState → List LMOp → Option SimState
  | s, [] => some s
  | s, op :: ops =>
    match lmApply s op with
    | none => none
    | some s' => lmRun s' ops

/-! ## Workers and metric records (`core/worker.py`, claims C4, C6, C9) -/

/-- The metric-relevant fields of `Worker`. -/
structure WorkerState where
  name : String
  retries : Int
  wait_time : ℚ
  has_started : Bool
deriving DecidableEq, Repr

/-- The payload `record_end` puts on the metrics queue. -/
structure MetricRecord where
  name : String
  status : String
  retries : Int
  duration : Option ℚ
  wait_time : ℚ
deriving DecidableEq, Repr

/-- Python `round(x, 3)` on a rational. -/
def round3 (x : ℚ) : ℚ :=
  round (x * 1000) / 1000

/-- A fresh worker: `retries = 0`, `wait_time = 0.0`, `started_at = None`. -/
def initWorker (name : String) : WorkerState :=
  { name := name, retries := 0, wait_time := 0, has_started := false }

/-- `Worker.record_start`. -/
def record_start (w : WorkerState) : WorkerState :=
  { w with has_started := true }

/-- `Worker.increment_retry`. -/
def increment_retry (w : WorkerState) : WorkerState :=
  { w with retries := w.retries + 1 }

/-- `Worker.add_wait_time`: adds `max(0.0, amount)`. -/
def add_wait_time (w : WorkerState) (amount : ℚ) : WorkerState :=
  { w with wait_time := w.wait_time + max 0 amount }

/-- `Worker.record_end`: emits nothing when no metrics queue is attached;
otherwise builds the payload from the worker state, the elapsed wall time
and the status string passed by the caller. -/
def record_end (queue_present : Bool) (w : WorkerState) (elapsed : ℚ)
    (status : String) : Option MetricRecord :=
  if queue_present then
    some { name := w.name,
           status := status,
           retries := w.retries,
           duration := if w.has_started then some (round3 elapsed) else none,
           wait_time := round3 w.wait_time }
  else none

/-- The operations a worker run performs on its own metric fields. -/
inductive WorkerOp where
  | retryOp
  | waitOp (amount : ℚ)
deriving DecidableEq, Repr

/-- Interpretation of one metric-field operation. -/
def applyWorkerOp (w : WorkerState) : WorkerOp → WorkerState
  | .retryOp => increment_retry w
  | .waitOp amount => add_wait_time w amount

/-- Worker state after a run that performed the given operations. -/
def runWorkerOps (w : WorkerState) (ops : List WorkerOp) : WorkerState :=
  ops.foldl applyWorkerOp w

/-- The records `NaiveWorker.run` emits: exactly one `record_end` call, with
status `"ok"` on normal completion and `"erro"` when an exception escapes
(the `except` branch re-raises after recording). -/
def naiveRunRecords (queue_present : Bool) (w : WorkerState) (elapsed : ℚ)
    (raised : Bool) : List MetricRecord :=
  match record_end queue_present w elapsed (if raised then "erro" else "ok") with
  | some m => [m]
  | none => []

/-- `random.uniform(a, b)`, i.e. `a + (b - a) * random()` for a unit draw. -/
def uniform (a b unitDraw : ℚ) : ℚ :=
  a + (b - a) * unitDraw

/-- One iteration of the `RetryWorker.run` loop, as observable events.
`firstTimeout = some j` means the `j`-th acquisition in this iteration's
order timed out; `none` means every lock was acquired. -/
structure RetryIter where
  acquiredIdx : List Nat
  releasedIdx : List Nat
  timedOut : Bool
  retriesDelta : Nat
  backoff : Option ℚ
deriving DecidableEq, Repr

/-- Events of one iteration of `RetryWorker.run`: on a timeout at position
`j` the locks acquired so far (positions `0..j-1`) are released in reverse
order, the retry counter is bumped once and the worker sleeps
`hold_time / 2 + uniform(0, hold_time / 2)`; on success everything is
released in reverse order with no backoff. -/
def retryIterTrace (numLocks : Nat) (hold : ℚ) (firstTimeout : Option Nat)
    (draw : ℚ) : RetryIter :=
  match firstTimeout with
  | some j =>
    { acquiredIdx := List.range j,
      releasedIdx := (List.range j).reverse,
      timedOut := true,
      retriesDelta := 1,
      backoff := some (hold / 2 + uniform 0 (hold / 2) draw) }
  | none =>
    { acquiredIdx := List.range numLocks,
      releasedIdx := (List.range numLocks).reverse,
      timedOut := false,
      retriesDelta := 0,
      backoff := none }

/-- The iteration trace of `RetryWorker.run`, starting at iteration `start`:
`timeoutAt` abstracts the real-time outcomes of `acquire(timeout=...)`,
`draws` is the per-worker PRNG stream of unit draws (`random.Random(name)`),
and `fuel` bounds the number of modelled iterations. -/
def retryTraceAux (numLocks : Nat) (hold : ℚ) (timeoutAt : Nat → Option Nat)
    (draws : Nat → ℚ) : Nat → Nat → List RetryIter
  | _, 0 => []
  | start, fuel + 1 =>
    let it := retryIterTrace numLocks hold (timeoutAt start) (draws start)
    if it.timedOut then
      it :: retryTraceAux numLocks hold timeoutAt draws (start + 1) fuel
    else [it]

/-- The iteration trace of `RetryWorker.run` from the first iteration. -/
def retryTrace (numLocks : Nat) (hold : ℚ) (timeoutAt : Nat → Option Nat)
    (draws : Nat → ℚ) (fuel : Nat) : List RetryIter :=
  retryTraceAux numLocks hold timeoutAt draws 0 fuel

/-! ## Banker-worker request construction (claim C6) -/

/-- `BankerWorker._build_request`: one `randint(1, need)` draw per positive
remaining need (`rand i need` is the draw for index `i`), zero for exhausted
classes; if the built request is all zeros, the component at
`randrange(len(remaining))` is forced to 1.  `none` models the `ValueError`
that `randrange(0)` raises on an empty vector. -/
def buildRequestDraws (rand : Nat → Int → Int) (remaining : List Int) :
    List Int :=
  remaining.enum.map (fun e => if e.2 ≤ 0 then 0 else rand e.1 e.2)

def build_request (rand : Nat → Int → Int) (pick : Nat → Nat)
    (remaining : List Int) : Option (List Int) :=
  if (buildRequestDraws rand remaining).all (fun v => v = 0) then
    if remaining.length = 0 then none
    else some ((buildRequestDraws rand remaining).set (pick remaining.length) 1)
  else some (buildRequestDraws rand remaining)

/-! ## Concrete instances used by witnesses -/

/-- A two-node cyclic wait-for graph. -/
def cyclicGraphW : WFGraph :=
  [("P1", ["P2"]), ("P2", ["P1"])]

/-- Two mutually blocked processes realising `cyclicGraphW`. -/
def deadlockProcsW : List Process :=
  [{ pid := "P1", plan := ["R1"], current_request := some "R1", state := .BLOCKED },
   { pid := "P2", plan := ["R2"], current_request := some "R2", state := .BLOCKED }]

/-- Resources held crosswise by `deadlockProcsW`. -/
def deadlockResW : List Resource :=
  [{ rid := "R1", held_by := some "P2" }, { rid := "R2", held_by := some "P1" }]

/-- Two crosswise-planned processes for the C8 witness. -/
def demoW : SimState :=
  { processes := [
      { pid := "P1", plan := ["R1", "R2"] },
      { pid := "P2", plan := ["R2", "R1"] }],
    resources := [{ rid := "R1" }, { rid := "R2" }] }

/-- The state in which `demoW`'s naive run halts with a detected deadlock. -/
def demoFinalW : SimState :=
  { processes := [
      { pid := "P1", plan := ["R1", "R2"], held_resources := ["R1"],
        current_request := some "R2", state := .DEADLOCKED },
      { pid := "P2", plan := ["R2", "R1"], held_resources := ["R2"],
        current_request := some "R1", state := .DEADLOCKED }],
    resources := [{ rid := "R1", held_by := some "P1" },
                  { rid := "R2", held_by := some "P2" }] }

/-- The state after the first naive step on `demoW` (used by C10's witness). -/
def demoMidW : SimState :=
  { processes := [
      { pid := "P1", plan := ["R1", "R2"], held_resources := ["R1"],
        current_request := none, state := .RUNNING },
      { pid := "P2", plan := ["R2", "R1"], held_resources := ["R2"],
        current_request := none, state := .RUNNING }],
    resources := [{ rid := "R1", held_by := some "P1" },
                  { rid := "R2", held_by := some "P2" }] }

/-- Initial one-process, one-resource state for the C7 witness. -/
def lmS0W : SimState :=
  { processes := [{ pid := "P1", plan := ["R1"] }],
    resources := [{ rid := "R1" }] }

/-- One acquisition call for the C7 witness. -/
def lmOpsW : List LMOp := [.requestOp "P1" "R1"]

/-- The state after `lmOpsW` runs on `lmS0W`. -/
def lmS1W : SimState :=
  { processes := [{ pid := "P1", plan := ["R1"], held_resources := ["R1"],
                    current_request := none, state := .RUNNING }],
    resources := [{ rid := "R1", held_by := some "P1" }] }

/-- A worker state reached after one retry, for the C4 witness. -/
def workerW : WorkerState :=
  runWorkerOps (record_start (initWorker "P1")) [WorkerOp.retryOp]

/-- The record `workerW` emits on the failure path. -/
def metricW : MetricRecord :=
  { name := workerW.name,
    status := "erro",
    retries := workerW.retries,
    duration := if workerW.has_started then some (round3 2) else none,
    wait_time := round3 workerW.wait_time }

/-! ## Derived predicates used by the claims -/

/-- How a single process contributes an edge `a → b` during
`build_wait_for_graph`: it is `BLOCKED` with a truthy pending request whose
resource is held by a truthy holder different from its own pid. -/
def Contributes (resources : List Resource) (p : Process) (a b : String) :
    Prop :=
  p.pid = a ∧ p.state = .BLOCKED ∧
    ∃ r, p.current_request = some r ∧ r ≠ "" ∧
      ∃ res, findRes resources r = some res ∧ res.held_by = some b ∧
        b ≠ "" ∧ b ≠ p.pid

/-- The lock-manager invariant: distinct pids and rids, ownership recorded
consistently on both sides, holders exist, and held ids are real resources. -/
def LMInv (s : SimState) : Prop :=
  (s.processes.map (fun p => p.pid)).Nodup ∧
  (s.resources.map (fun r => r.rid)).Nodup ∧
  (∀ r ∈ s.resources, ∀ p ∈ s.processes,
    (r.held_by = some p.pid ↔ r.rid ∈ p.held_resources)) ∧
  (∀ r ∈ s.resources, ∀ q, r.held_by = some q →
    ∃ p ∈ s.processes, p.pid = q) ∧
  (∀ p ∈ s.processes, ∀ rid ∈ p.held_resources,
    ∃ r ∈ s.resources, r.rid = rid)

/-- A returned cycle witness: nonempty, closed, and an edge chain. -/
def CycleWitness (g : WFGraph) (c : List String) : Prop :=
  c ≠ [] ∧ c.head? = c.getLast? ∧ List.Chain' (Edge g) c

/-- Number of graph nodes not yet visited; the decreasing measure justifying
the fuel bound handed to `dfs`. -/
def unvisitedCount (g : WFGraph) (V : List String) : Nat :=
  ((allNodes g).toFinset \ V.toFinset).card

/-- The dfs invariant: every visited node off the current path has all its
successors visited and lies on no cycle. -/
def BlackInv (g : WFGraph) (V P : List String) : Prop :=
  ∀ v ∈ V, v ∉ P →
    (∀ w ∈ adj g v, w ∈ V) ∧ ¬ Relation.TransGen (Edge g) v v

/-! ## Soundness of cycle discovery (claim C1) -/

lemma head?_dropWhile_ne {n : String} {l : List String} (h : n ∈ l) :
    (l.dropWhile (fun x => x ≠ n)).head? = some n := by
  induction l with
  | nil => simp at h
  | cons a t ih =>
    rw [List.dropWhile_cons]
    by_cases ha : a = n
    · subst ha; simp
    · have hd : (decide (a ≠ n)) = true := by simp [ha]
      rw [hd]
      simp only [if_true]
      exact ih (by
        rcases List.mem_cons.mp h with h1 | h2
        · exact absurd h1.symm ha
        · exact h2)

lemma getLast?_of_suffix {q p : List String} (hs : q <:+ p) (hq : q ≠ []) :
    q.getLast? = p.getLast? := by
  rcases hs with ⟨t, rfl⟩
  rw [List.getLast?_append]
  cases hql : q.getLast? with
  | none => exact absurd (List.getLast?_eq_none_iff.mp hql) hq
  | some a => rfl

lemma head?_append_of_ne_nil {l l' : List String} (h : l ≠ []) :
    (l ++ l').head? = l.head? := by
  cases l with
  | nil => exact absurd rfl h
  | cons a t => rfl

/-- The cycle slice `path[path.index(n):] + [n]` returned by the dfs when it
meets a neighbour `n` already on the path is a genuine cycle witness. -/
lemma slice_cycleWitness {g : WFGraph} {path : List String} {u n : String}
    (hpath : List.Chain' (Edge g) path)
    (hlast : path.getLast? = some u)
    (hn : n ∈ path)
    (hedge : Edge g u n) :
    CycleWitness g (path.dropWhile (fun x => x ≠ n) ++ [n]) := by
  set q := path.dropWhile (fun x => x ≠ n) with hq
  have hqhead : q.head? = some n := head?_dropWhile_ne hn
  have hqne : q ≠ [] := by
    intro hc
    rw [hc] at hqhead
    simp at hqhead
  have hqsuffix : q <:+ path := List.dropWhile_suffix _
  have hqchain : List.Chain' (Edge g) q := hpath.suffix hqsuffix
  have hqlast : q.getLast? = some u := by
    rw [getLast?_of_suffix hqsuffix hqne, hlast]
  refine ⟨by simp, ?_, ?_⟩
  · rw [head?_append_of_ne_nil hqne, hqhead, List.getLast?_concat]
  · rw [List.chain'_append]
    refine ⟨hqchain, List.chain'_singleton n, ?_⟩
    intro x hx y hy
    rw [hqlast] at hx
    simp at hx hy
    subst hx; subst hy
    exact hedge

/-- Soundness of the neighbour loop, parametric in the soundness of the
recursive `dfs` one level deeper. -/
lemma dfsVisit_sound {g : WFGraph} {fuel : Nat}
    (IH : ∀ node visited path c v',
      List.Chain' (Edge g) (path ++ [node]) →
      dfs g fuel node visited path = (some c, v') →
      CycleWitness g c) :
    ∀ ns visited path u c v',
      path.getLast? = some u →
      List.Chain' (Edge g) path →
      (∀ n ∈ ns, Edge g u n) →
      dfsVisit (dfs g fuel) ns visited path = (some c, v') →
      CycleWitness g c := by
  intro ns
  induction ns with
  | nil => intro visited path u c v' _ _ _ h; simp [dfsVisit] at h
  | cons n rest ih =>
    intro visited path u c v' hlast hchain hedges h
    rw [dfsVisit] at h
    by_cases hv : n ∈ visited
    · rw [if_pos hv] at h
      by_cases hp : n ∈ path
      · rw [if_pos hp] at h
        simp only [Prod.mk.injEq, Option.some.injEq] at h
        obtain ⟨rfl, rfl⟩ := h
        exact slice_cycleWitness hchain hlast hp (hedges n (List.mem_cons_self n rest))
      · rw [if_neg hp] at h
        exact ih visited path u c v' hlast hchain
          (fun m hm => hedges m (List.mem_cons_of_mem n hm)) h
    · rw [if_neg hv] at h
      rcases hrec : dfs g fuel n visited path with ⟨found, v⟩
      rw [hrec] at h
      cases found with
      | some c' =>
        simp only [Prod.mk.injEq, Option.some.injEq] at h
        obtain ⟨rfl, rfl⟩ := h
        refine IH n visited path c' v ?_ hrec
        rw [List.chain'_append]
        refine ⟨hchain, List.chain'_singleton n, ?_⟩
        intro x hx y hy
        rw [hlast] at hx
        simp at hx hy
        subst hx; subst hy
        exact hedges n (List.mem_cons_self n rest)
      | none =>
        exact ih v path u c v' hlast hchain
          (fun m hm => hedges m (List.mem_cons_of_mem n hm)) h

/-- Soundness of `dfs`: any returned cycle is a genuine cycle witness. -/
lemma dfs_sound {g : WFGraph} :
    ∀ fuel node visited path c v',
      List.Chain' (Edge g) (path ++ [node]) →
      dfs g fuel node visited path = (some c, v') →
      CycleWitness g c := by
  intro fuel
  induction fuel with
  | zero => intro node visited path c v' _ h; simp [dfs] at h
  | succ fuel ih =>
    intro node visited path c v' hchain h
    rw [dfs] at h
    exact dfsVisit_sound (fun n' v'' p' c' r' hch hd => ih n' v'' p' c' r' hch hd)
      (adj g node) (node :: visited) (path ++ [node]) node c v'
      (List.getLast?_concat path) hchain (fun n hn => hn) h

/-- Soundness of the top-level key loop. -/
lemma findCycleLoop_sound {g : WFGraph} :
    ∀ ks visited c,
      findCycleLoop g ks visited = some c →
      CycleWitness g c := by
  intro ks
  induction ks with
  | nil => intro visited c h; simp [findCycleLoop] at h
  | cons k rest ih =>
    intro visited c h
    rw [findCycleLoop] at h
    by_cases hv : k ∈ visited
    · rw [if_pos hv] at h
      exact ih visited c h
    · rw [if_neg hv] at h
      rcases hd : dfs g (fuelBound g) k visited [] with ⟨found, v⟩
      rw [hd] at h
      cases found with
      | some c' =>
        have hcc : c' = c := by simpa using h
        subst hcc
        exact dfs_sound (fuelBound g) k visited [] c' v (by simp) hd
      | none => exact ih v c h

/-! ## Completeness of cycle discovery (claim C2) -/

lemma allNodes_cons (e : String × List String) (g : WFGraph) :
    allNodes (e :: g) = e.1 :: (e.2 ++ allNodes g) := rfl

lemma mem_allNodes_of_entry {g : WFGraph} {e : String × List String}
    (he : e ∈ g) : e.1 ∈ allNodes g ∧ ∀ v ∈ e.2, v ∈ allNodes g := by
  induction g with
  | nil => simp at he
  | cons e' g' ih =>
    rw [allNodes_cons]
    rcases List.mem_cons.mp he with rfl | he'
    · exact ⟨List.mem_cons_self _ _, fun v hv =>
        List.mem_cons_of_mem _ (List.mem_append_left _ hv)⟩
    · rcases ih he' with ⟨h1, h2⟩
      exact ⟨List.mem_cons_of_mem _ (List.mem_append_right _ h1),
        fun v hv => List.mem_cons_of_mem _ (List.mem_append_right _ (h2 v hv))⟩

lemma adj_subset_allNodes {g : WFGraph} {u v : String} (h : v ∈ adj g u) :
    v ∈ allNodes g := by
  unfold adj at h
  cases hf : g.find? (fun e => e.1 = u) with
  | none => rw [hf] at h; simp at h
  | some e =>
    rw [hf] at h
    exact (mem_allNodes_of_entry (List.mem_of_find?_eq_some hf)).2 v h

lemma edge_mem_keys {g : WFGraph} {u v : String} (h : Edge g u v) :
    u ∈ g.map (fun e => e.1) := by
  unfold Edge adj at h
  cases hf : g.find? (fun e => e.1 = u) with
  | none => rw [hf] at h; simp at h
  | some e =>
    have he : e ∈ g := List.mem_of_find?_eq_some hf
    have hp : e.1 = u := by simpa using List.find?_some hf
    exact hp ▸ List.mem_map_of_mem _ he

lemma keys_subset_allNodes {g : WFGraph} {k : String}
    (h : k ∈ g.map (fun e => e.1)) : k ∈ allNodes g := by
  rcases List.mem_map.mp h with ⟨e, he, rfl⟩
  exact (mem_allNodes_of_entry he).1

lemma unvisitedCount_le_of_subset {g : WFGraph} {V V' : List String}
    (h : ∀ x ∈ V, x ∈ V') : unvisitedCount g V' ≤ unvisitedCount g V := by
  apply Finset.card_le_card
  apply Finset.sdiff_subset_sdiff (le_refl _)
  intro x hx
  rw [List.mem_toFinset] at hx ⊢
  exact h x hx

lemma unvisitedCount_pos {g : WFGraph} {V : List String} {x : String}
    (hx : x ∈ allNodes g) (hxV : x ∉ V) : 1 ≤ unvisitedCount g V := by
  unfold unvisitedCount
  exact Finset.card_pos.mpr ⟨x, Finset.mem_sdiff.mpr ⟨List.mem_toFinset.mpr hx,
    fun hc => hxV (List.mem_toFinset.mp hc)⟩⟩

lemma unvisitedCount_cons {g : WFGraph} {V : List String} {x : String}
    (hx : x ∈ allNodes g) (hxV : x ∉ V) :
    unvisitedCount g (x :: V) = unvisitedCount g V - 1 := by
  unfold unvisitedCount
  rw [List.toFinset_cons, Finset.sdiff_insert, Finset.card_erase_of_mem]
  exact Finset.mem_sdiff.mpr ⟨List.mem_toFinset.mpr hx,
    fun hc => hxV (List.mem_toFinset.mp hc)⟩

lemma unvisitedCount_le_length (g : WFGraph) (V : List String) :
    unvisitedCount g V ≤ (allNodes g).length :=
  le_trans (Finset.card_le_card (Finset.sdiff_subset))
    (List.toFinset_card_le _)

lemma blackInv_push {g : WFGraph} {V P : List String} {node : String}
    (h : BlackInv g V P) : BlackInv g (node :: V) (P ++ [node]) := by
  intro v hv hvp
  have hvnode : v ≠ node := by
    intro hc; subst hc; exact hvp (List.mem_append_right _ (List.mem_singleton.mpr rfl))
  have hvV : v ∈ V := by
    rcases List.mem_cons.mp hv with hc | hc
    · exact absurd hc hvnode
    · exact hc
  have hvP : v ∉ P := fun hc => hvp (List.mem_append_left _ hc)
  rcases h v hvV hvP with ⟨h1, h2⟩
  exact ⟨fun w hw => List.mem_cons_of_mem _ (h1 w hw), h2⟩

/-- After the neighbour loop finishes without reporting a cycle, the current
node joins the black set: all its successors are black, so it lies on no
cycle either. -/
lemma blackInv_pop {g : WFGraph} {V P : List String} {node : String}
    (hinv : BlackInv g V (P ++ [node]))
    (hnodeV : node ∈ V)
    (hadj : ∀ n ∈ adj g node, n ∈ V ∧ n ∉ P ++ [node]) :
    BlackInv g V P := by
  intro v hv hvp
  by_cases hvn : v = node
  · subst hvn
    refine ⟨fun w hw => (hadj w hw).1, ?_⟩
    intro htg
    rcases Relation.TransGen.head'_iff.mp htg with ⟨w, hew, hrt⟩
    have hw : w ∈ adj g v := hew
    rcases hadj w hw with ⟨hwV, hwP⟩
    rcases hinv w hwV hwP with ⟨_, hnc⟩
    exact hnc (Relation.TransGen.tail' hrt hew)
  · have hvp' : v ∉ P ++ [node] := by
      intro hc
      rcases List.mem_append.mp hc with hc' | hc'
      · exact hvp hc'
      · exact hvn (List.mem_singleton.mp hc')
    exact hinv v hv hvp'

/-- Completeness invariant for the neighbour loop, parametric in the same
property of `dfs` at the same fuel level. -/
lemma dfsVisit_complete {g : WFGraph} {fuel : Nat}
    (Hdfs : ∀ node V P v',
      node ∈ allNodes g → node ∉ V → (∀ p ∈ P, p ∈ V) → BlackInv g V P →
      unvisitedCount g V ≤ fuel →
      dfs g fuel node V P = (none, v') →
      (∀ x ∈ V, x ∈ v') ∧ node ∈ v' ∧ BlackInv g v' P) :
    ∀ ns V P v',
      (∀ n ∈ ns, n ∈ allNodes g) → (∀ p ∈ P, p ∈ V) → BlackInv g V P →
      unvisitedCount g V ≤ fuel →
      dfsVisit (dfs g fuel) ns V P = (none, v') →
      (∀ x ∈ V, x ∈ v') ∧ BlackInv g v' P ∧
        (∀ n ∈ ns, n ∈ v' ∧ n ∉ P) := by
  intro ns
  induction ns with
  | nil =>
    intro V P v' _ _ hinv _ h
    simp only [dfsVisit, Prod.mk.injEq] at h
    obtain ⟨_, rfl⟩ := h
    exact ⟨fun x hx => hx, hinv, by simp⟩
  | cons n rest ih =>
    intro V P v' hns hPV hinv hm h
    rw [dfsVisit] at h
    by_cases hv : n ∈ V
    · rw [if_pos hv] at h
      by_cases hp : n ∈ P
      · rw [if_pos hp] at h
        simp at h
      · rw [if_neg hp] at h
        rcases ih V P v' (fun m hm' => hns m (List.mem_cons_of_mem n hm'))
          hPV hinv hm h with ⟨h1, h2, h3⟩
        refine ⟨h1, h2, ?_⟩
        intro m hm'
        rcases List.mem_cons.mp hm' with rfl | hm''
        · exact ⟨h1 m hv, hp⟩
        · exact h3 m hm''
    · rw [if_neg hv] at h
      rcases hrec : dfs g fuel n V P with ⟨found, v⟩
      rw [hrec] at h
      cases found with
      | some c => simp at h
      | none =>
        rcases Hdfs n V P v (hns n (List.mem_cons_self n rest)) hv hPV hinv hm
          hrec with ⟨hmono, hnv, hinv'⟩
        rcases ih v P v' (fun m hm' => hns m (List.mem_cons_of_mem n hm'))
          (fun p hp => hmono p (hPV p hp)) hinv'
          (le_trans (unvisitedCount_le_of_subset hmono) hm) h with ⟨h1, h2, h3⟩
        refine ⟨fun x hx => h1 x (hmono x hx), h2, ?_⟩
        intro m hm'
        rcases List.mem_cons.mp hm' with rfl | hm''
        · exact ⟨h1 m hnv, fun hc => hv (hPV m hc)⟩
        · exact h3 m hm''

/-- Completeness invariant of `dfs`: a run that reports no cycle turns its
start node black, preserving the black invariant and growing `visited`. -/
lemma dfs_complete {g : WFGraph} :
    ∀ fuel node V P v',
      node ∈ allNodes g → node ∉ V → (∀ p ∈ P, p ∈ V) → BlackInv g V P →
      unvisitedCount g V ≤ fuel →
      dfs g fuel node V P = (none, v') →
      (∀ x ∈ V, x ∈ v') ∧ node ∈ v' ∧ BlackInv g v' P := by
  intro fuel
  induction fuel with
  | zero =>
    intro node V P v' hnode hnV _ _ hm _
    exact absurd (le_trans (unvisitedCount_pos hnode hnV) hm) (by simp)
  | succ fuel ihf =>
    intro node V P v' hnode hnV hPV hinv hm h
    rw [dfs] at h
    have hm' : unvisitedCount g (node :: V) ≤ fuel := by
      have h1 := unvisitedCount_cons hnode hnV
      have h2 := unvisitedCount_pos hnode hnV
      omega
    rcases dfsVisit_complete (fun n' V' P' w' a b c d e f =>
        ihf n' V' P' w' a b c d e f)
      (adj g node) (node :: V) (P ++ [node]) v'
      (fun n hn => adj_subset_allNodes hn)
      (by
        intro p hp
        rcases List.mem_append.mp hp with hc | hc
        · exact List.mem_cons_of_mem _ (hPV p hc)
        · rw [List.mem_singleton.mp hc]; exact List.mem_cons_self _ _)
      (blackInv_push hinv) hm' h with ⟨h1, h2, h3⟩
    refine ⟨fun x hx => h1 x (List.mem_cons_of_mem _ hx),
      h1 node (List.mem_cons_self _ _), ?_⟩
    exact blackInv_pop h2 (h1 node (List.mem_cons_self _ _))
      (fun n hn => ⟨(h3 n hn).1, (h3 n hn).2⟩)

/-- Completeness of the key loop: if it reports no cycle then no node that is
a key or already visited lies on a cycle. -/
lemma findCycleLoop_complete {g : WFGraph} :
    ∀ ks V,
      (∀ k ∈ ks, k ∈ allNodes g) → BlackInv g V [] →
      findCycleLoop g ks V = none →
      ∀ x, (x ∈ ks ∨ x ∈ V) → ¬ Relation.TransGen (Edge g) x x := by
  intro ks
  induction ks with
  | nil =>
    intro V _ hinv _ x hx
    rcases hx with hx | hx
    · simp at hx
    · exact (hinv x hx (by simp)).2
  | cons k rest ih =>
    intro V hks hinv h x hx
    rw [findCycleLoop] at h
    by_cases hv : k ∈ V
    · rw [if_pos hv] at h
      refine ih V (fun m hm => hks m (List.mem_cons_of_mem k hm)) hinv h x ?_
      rcases hx with hx | hx
      · rcases List.mem_cons.mp hx with rfl | hx'
        · exact Or.inr hv
        · exact Or.inl hx'
      · exact Or.inr hx
    · rw [if_neg hv] at h
      rcases hd : dfs g (fuelBound g) k V [] with ⟨found, v⟩
      rw [hd] at h
      cases found with
      | some c => simp at h
      | none =>
        have hm : unvisitedCount g V ≤ fuelBound g := by
          have := unvisitedCount_le_length g V
          unfold fuelBound
          omega
        rcases dfs_complete (fuelBound g) k V [] v
          (hks k (List.mem_cons_self k rest)) hv (by simp)
          hinv hm hd with ⟨hmono, hkv, hinv'⟩
        refine ih v (fun m hm' => hks m (List.mem_cons_of_mem k hm')) hinv' h x ?_
        rcases hx with hx | hx
        · rcases List.mem_cons.mp hx with rfl | hx'
          · exact Or.inr hkv
          · exact Or.inl hx'
        · exact Or.inr (hmono x hx)

/-- If a cycle exists, `_find_cycle` cannot return `None`. -/
lemma find_cycle_isSome {g : WFGraph} (h : HasCycle g) :
    (find_cycle g).isSome = true := by
  rcases h with ⟨v, htg⟩
  cases hfc : find_cycle g with
  | some c => rfl
  | none =>
    exfalso
    unfold find_cycle at hfc
    have hkey : v ∈ g.map (fun e => e.1) := by
      rcases Relation.TransGen.head'_iff.mp htg with ⟨w, hew, _⟩
      exact edge_mem_keys hew
    exact findCycleLoop_complete (g.map (fun e => e.1)) []
      (fun k hk => keys_subset_allNodes hk)
      (by intro x hx; simp at hx)
      hfc v (Or.inl hkey) htg

/-! ## Next-request selection (claim C5) -/

lemma find?_eq_head?_filter (p : String → Bool) (l : List String) :
    l.find? p = (l.filter p).head? := by
  induction l with
  | nil => rfl
  | cons a t ih =>
    by_cases ha : p a
    · rw [List.find?_cons_of_pos _ ha, List.filter_cons_of_pos ha]
      rfl
    · rw [List.find?_cons_of_neg _ (by simpa using ha),
        List.filter_cons_of_neg (by simpa using ha)]
      exact ih

lemma insertionSort_head_least (l : List String) (h : l ≠ []) :
    ∃ m, (l.insertionSort (· ≤ ·)).head? = some m ∧ m ∈ l ∧ ∀ x ∈ l, m ≤ x := by
  have hp := List.perm_insertionSort (α := String) (· ≤ ·) l
  have hs := List.sorted_insertionSort (α := String) (· ≤ ·) l
  match hh : l.insertionSort (· ≤ ·) with
  | [] =>
    rw [hh] at hp
    exact absurd hp.nil_eq.symm h
  | m :: t =>
    refine ⟨m, rfl, ?_, ?_⟩
    · rw [hh] at hp
      exact hp.mem_iff.mp (List.mem_cons_self m t)
    · intro x hx
      rw [hh] at hp hs
      have hx' : x ∈ m :: t := hp.mem_iff.mpr hx
      rcases List.mem_cons.mp hx' with rfl | hx''
      · exact le_refl x
      · exact List.rel_of_sorted_cons hs x hx''

/-! ## Wait-for graph construction (claim C3) -/

lemma adj_addEdge (g : WFGraph) (u v x : String) :
    adj (addEdge g u v) x =
      if x = u then (adj g u).insert v else adj g x := by
  unfold addEdge adj
  cases hf : g.find? (fun e => e.1 = u) with
  | some e =>
    have hkey : ∀ e' : String × List String,
        ((fun e' => if e'.1 = u then (e'.1, e'.2.insert v) else e') e').1 = e'.1 := by
      intro e'
      by_cases h : e'.1 = u <;> simp [h]
    rw [List.find?_map]
    have hcomp : ((fun e : String × List String => decide (e.1 = x)) ∘
        (fun e' => if e'.1 = u then (e'.1, e'.2.insert v) else e')) =
        (fun e : String × List String => decide (e.1 = x)) := by
      funext e'
      simp only [Function.comp_apply, hkey]
    rw [hcomp]
    by_cases hx : x = u
    · subst hx
      rw [hf]
      have he1 : e.1 = x := by simpa using List.find?_some hf
      simp [he1]
    · rw [if_neg hx]
      cases hg : g.find? (fun e => e.1 = x) with
      | none => simp
      | some e' =>
        have he1 : e'.1 = x := by simpa using List.find?_some hg
        have hne : ¬ e'.1 = u := by rw [he1]; exact hx
        simp [hne]
  | none =>
    rw [List.find?_append]
    by_cases hx : x = u
    · subst hx
      rw [hf]
      have h2 : List.find? (fun e => decide (e.1 = x))
          [(x, [v])] = some (x, [v]) := by simp
      rw [h2]
      simp
    · rw [if_neg hx]
      have h2 : List.find? (fun e => decide (e.1 = x)) [(u, [v])] = none := by
        simp [Ne.symm hx]
      rw [h2]
      cases hg : g.find? (fun e => decide (e.1 = x)) <;> rfl

lemma edge_addEdge_iff (g : WFGraph) (u v a b : String) :
    Edge (addEdge g u v) a b ↔ (a = u ∧ b = v) ∨ Edge g a b := by
  unfold Edge
  rw [adj_addEdge]
  by_cases ha : a = u
  · subst ha
    rw [if_pos rfl, List.mem_insert_iff]
    tauto
  · rw [if_neg ha]
    constructor
    · exact fun h => Or.inr h
    · intro h
      rcases h with ⟨h1, _⟩ | h
      · exact absurd h1 ha
      · exact h

lemma edge_nil (a b : String) : ¬ Edge [] a b := by
  intro h
  unfold Edge adj at h
  simp at h

lemma buildWFGAux_edge {rs : List Resource} :
    ∀ (ps : List Process) (g0 g : WFGraph),
      buildWFGAux ps rs g0 = some g →
      ∀ a b, Edge g a b ↔ Edge g0 a b ∨ ∃ p ∈ ps, Contributes rs p a b := by
  intro ps
  induction ps with
  | nil =>
    intro g0 g h a b
    simp only [buildWFGAux, Option.some.injEq] at h
    subst h
    simp
  | cons p ps ih =>
    intro g0 g h a b
    rw [buildWFGAux] at h
    by_cases hcond : p.state = .BLOCKED ∧ truthy p.current_request
    · rw [if_pos hcond] at h
      cases hcr : p.current_request with
      | none =>
        rw [hcr] at hcond
        simp [truthy] at hcond
      | some req =>
        simp only [hcr] at h
        have hreqne : req ≠ "" := by
          have := hcond.2
          rw [hcr] at this
          simpa [truthy] using this
        cases hfr : findRes rs req with
        | none =>
          simp only [hfr] at h
          exact Option.noConfusion h
        | some resource =>
          simp only [hfr] at h
          cases hhb : resource.held_by with
          | none =>
            simp only [hhb] at h
            rw [ih g0 g h a b]
            constructor
            · intro hor
              rcases hor with h1 | ⟨q, hq, hc⟩
              · exact Or.inl h1
              · exact Or.inr ⟨q, List.mem_cons_of_mem p hq, hc⟩
            · intro hor
              rcases hor with h1 | ⟨q, hq, hc⟩
              · exact Or.inl h1
              · rcases List.mem_cons.mp hq with rfl | hq'
                · rcases hc with ⟨_, _, r, hr, _, res, hres, hresb, _⟩
                  rw [hcr] at hr
                  obtain rfl : req = r := by simpa using hr
                  rw [hfr] at hres
                  obtain rfl : resource = res := by simpa using hres
                  rw [hhb] at hresb
                  simp at hresb
                · exact Or.inr ⟨q, hq', hc⟩
          | some holder =>
            simp only [hhb] at h
            by_cases hne : holder ≠ "" ∧ holder ≠ p.pid
            · rw [if_pos hne] at h
              rw [ih _ g h a b, edge_addEdge_iff]
              constructor
              · intro hor
                rcases hor with (⟨rfl, rfl⟩ | h1) | ⟨q, hq, hc⟩
                · refine Or.inr ⟨p, List.mem_cons_self p ps, rfl, hcond.1,
                    req, hcr, hreqne, resource, hfr, hhb, hne.1, hne.2⟩
                · exact Or.inl h1
                · exact Or.inr ⟨q, List.mem_cons_of_mem p hq, hc⟩
              · intro hor
                rcases hor with h1 | ⟨q, hq, hc⟩
                · exact Or.inl (Or.inr h1)
                · rcases List.mem_cons.mp hq with rfl | hq'
                  · rcases hc with ⟨rfl, _, r, hr, _, res, hres, hresb, _, hbp⟩
                    rw [hcr] at hr
                    obtain rfl : req = r := by simpa using hr
                    rw [hfr] at hres
                    obtain rfl : resource = res := by simpa using hres
                    rw [hhb] at hresb
                    obtain rfl : holder = b := by simpa using hresb
                    exact Or.inl (Or.inl ⟨rfl, rfl⟩)
                  · exact Or.inr ⟨q, hq', hc⟩
            · rw [if_neg hne] at h
              rw [ih g0 g h a b]
              constructor
              · intro hor
                rcases hor with h1 | ⟨q, hq, hc⟩
                · exact Or.inl h1
                · exact Or.inr ⟨q, List.mem_cons_of_mem p hq, hc⟩
              · intro hor
                rcases hor with h1 | ⟨q, hq, hc⟩
                · exact Or.inl h1
                · rcases List.mem_cons.mp hq with rfl | hq'
                  · rcases hc with ⟨_, _, r, hr, _, res, hres, hresb, hb1, hb2⟩
                    rw [hcr] at hr
                    obtain rfl : req = r := by simpa using hr
                    rw [hfr] at hres
                    obtain rfl : resource = res := by simpa using hres
                    rw [hhb] at hresb
                    obtain rfl : holder = b := by simpa using hresb
                    exact absurd ⟨hb1, hb2⟩ hne
                  · exact Or.inr ⟨q, hq', hc⟩
    · rw [if_neg hcond] at h
      rw [ih g0 g h a b]
      constructor
      · intro hor
        rcases hor with h1 | ⟨q, hq, hc⟩
        · exact Or.inl h1
        · exact Or.inr ⟨q, List.mem_cons_of_mem p hq, hc⟩
      · intro hor
        rcases hor with h1 | ⟨q, hq, hc⟩
        · exact Or.inl h1
        · rcases List.mem_cons.mp hq with rfl | hq'
          · rcases hc with ⟨_, hblocked, r, hr, hrne, _⟩
            exact absurd ⟨hblocked, by rw [hr]; simpa [truthy] using hrne⟩ hcond
          · exact Or.inr ⟨q, hq', hc⟩

/-! ## Worker metric records (claim C4) -/

lemma applyWorkerOp_retries_nonneg {w : WorkerState} {op : WorkerOp}
    (h : 0 ≤ w.retries) : 0 ≤ (applyWorkerOp w op).retries := by
  cases op with
  | retryOp => simp only [applyWorkerOp, increment_retry]; omega
  | waitOp a => simpa [applyWorkerOp, add_wait_time] using h

lemma applyWorkerOp_wait_nonneg {w : WorkerState} {op : WorkerOp}
    (h : 0 ≤ w.wait_time) : 0 ≤ (applyWorkerOp w op).wait_time := by
  cases op with
  | retryOp => simpa [applyWorkerOp, increment_retry] using h
  | waitOp a =>
    simp only [applyWorkerOp, add_wait_time]
    have : (0 : ℚ) ≤ max 0 a := le_max_left 0 a
    linarith

lemma runWorkerOps_retries_nonneg {w : WorkerState} (ops : List WorkerOp)
    (h : 0 ≤ w.retries) : 0 ≤ (runWorkerOps w ops).retries := by
  induction ops generalizing w with
  | nil => exact h
  | cons op rest ih => exact ih (applyWorkerOp_retries_nonneg h)

lemma runWorkerOps_wait_nonneg {w : WorkerState} (ops : List WorkerOp)
    (h : 0 ≤ w.wait_time) : 0 ≤ (runWorkerOps w ops).wait_time := by
  induction ops generalizing w with
  | nil => exact h
  | cons op rest ih => exact ih (applyWorkerOp_wait_nonneg h)

lemma round3_nonneg {x : ℚ} (h : 0 ≤ x) : 0 ≤ round3 x := by
  unfold round3
  have h1 : (0 : ℤ) ≤ round (x * 1000) := by
    rw [round_eq]
    rw [Int.le_floor]
    push_cast
    linarith
  exact div_nonneg (by exact_mod_cast h1) (by norm_num)

/-! ## Retry-worker backoff trace (claim C9) -/

lemma retryTraceAux_get? {k : Nat} {hold : ℚ} {T : Nat → Option Nat}
    {d : Nat → ℚ} :
    ∀ fuel start i it,
      (retryTraceAux k hold T d start fuel).get? i = some it →
      it = retryIterTrace k hold (T (start + i)) (d (start + i)) := by
  intro fuel
  induction fuel with
  | zero => intro start i it h; simp [retryTraceAux] at h
  | succ fuel ih =>
    intro start i it h
    rw [retryTraceAux] at h
    by_cases ht : (retryIterTrace k hold (T start) (d start)).timedOut
    · rw [if_pos ht] at h
      cases i with
      | zero =>
        simp at h
        simpa using h.symm
      | succ j =>
        simp only [List.get?_cons_succ] at h
        have harith : start + 1 + j = start + (j + 1) := by omega
        have hres := ih (start + 1) j it h
        rw [hres, harith]
    · rw [if_neg ht] at h
      cases i with
      | zero =>
        simp at h
        simpa using h.symm
      | succ j => simp at h

/-! ## Lock-manager invariant (claim C7) -/

lemma find?_pid_mem {ps : List Process} {pid : String} {proc : Process}
    (h : ps.find? (fun p => p.pid = pid) = some proc) :
    proc ∈ ps ∧ proc.pid = pid :=
  ⟨List.mem_of_find?_eq_some h, by simpa using List.find?_some h⟩

lemma findRes_mem {rs : List Resource} {rid : String} {res : Resource}
    (h : findRes rs rid = some res) : res ∈ rs ∧ res.rid = rid :=
  ⟨List.mem_of_find?_eq_some h, by simpa using List.find?_some h⟩

lemma mem_updateFirstPid_of_ne {ps : List Process} {pid : String}
    {p' x : Process} (hx : x ∈ ps) (hne : x.pid ≠ pid) :
    x ∈ updateFirstPid ps pid p' := by
  induction ps with
  | nil => simp at hx
  | cons y ys ih =>
    rw [updateFirstPid]
    by_cases hy : y.pid = pid
    · rw [if_pos hy]
      rcases List.mem_cons.mp hx with rfl | hx'
      · exact absurd hy hne
      · exact List.mem_cons_of_mem _ hx'
    · rw [if_neg hy]
      rcases List.mem_cons.mp hx with rfl | hx'
      · exact List.mem_cons_self _ _
      · exact List.mem_cons_of_mem _ (ih hx')

lemma mem_updateFirstPid_self {ps : List Process} {pid : String} {p' : Process}
    (h : ∃ y ∈ ps, y.pid = pid) : p' ∈ updateFirstPid ps pid p' := by
  induction ps with
  | nil => rcases h with ⟨y, hy, _⟩; simp at hy
  | cons y ys ih =>
    rw [updateFirstPid]
    by_cases hy : y.pid = pid
    · rw [if_pos hy]; exact List.mem_cons_self _ _
    · rw [if_neg hy]
      rcases h with ⟨z, hz, hzpid⟩
      rcases List.mem_cons.mp hz with rfl | hz'
      · exact absurd hzpid hy
      · exact List.mem_cons_of_mem _ (ih ⟨z, hz', hzpid⟩)

lemma map_pid_updateFirstPid {ps : List Process} {pid : String} {p' : Process}
    (h : p'.pid = pid) :
    (updateFirstPid ps pid p').map (fun p => p.pid) =
      ps.map (fun p => p.pid) := by
  induction ps with
  | nil => rfl
  | cons y ys ih =>
    rw [updateFirstPid]
    by_cases hy : y.pid = pid
    · rw [if_pos hy]
      simp only [List.map_cons]
      rw [h, hy]
    · rw [if_neg hy]
      simp only [List.map_cons]
      rw [ih]

lemma mem_updateFirstPid_iff {ps : List Process} {pid : String} {p' x : Process}
    (hnd : (ps.map (fun p => p.pid)).Nodup) (hex : ∃ y ∈ ps, y.pid = pid) :
    x ∈ updateFirstPid ps pid p' ↔ (x = p' ∨ (x ∈ ps ∧ x.pid ≠ pid)) := by
  induction ps with
  | nil => rcases hex with ⟨y, hy, _⟩; simp at hy
  | cons y ys ih =>
    rw [updateFirstPid]
    rw [List.map_cons, List.nodup_cons] at hnd
    by_cases hy : y.pid = pid
    · rw [if_pos hy]
      constructor
      · intro hx
        rcases List.mem_cons.mp hx with rfl | hx'
        · exact Or.inl rfl
        · refine Or.inr ⟨List.mem_cons_of_mem _ hx', ?_⟩
          intro hc
          exact hnd.1 (by
            rw [hy, ← hc]
            exact List.mem_map_of_mem _ hx')
      · intro hx
        rcases hx with rfl | ⟨hx1, hx2⟩
        · exact List.mem_cons_self _ _
        · rcases List.mem_cons.mp hx1 with rfl | hx'
          · exact absurd hy hx2
          · exact List.mem_cons_of_mem _ hx'
    · rw [if_neg hy]
      have hex' : ∃ y ∈ ys, y.pid = pid := by
        rcases hex with ⟨z, hz, hzpid⟩
        rcases List.mem_cons.mp hz with rfl | hz'
        · exact absurd hzpid hy
        · exact ⟨z, hz', hzpid⟩
      constructor
      · intro hx
        rcases List.mem_cons.mp hx with rfl | hx'
        · exact Or.inr ⟨List.mem_cons_self _ _, hy⟩
        · rcases (ih hnd.2 hex').mp hx' with rfl | ⟨h1, h2⟩
          · exact Or.inl rfl
          · exact Or.inr ⟨List.mem_cons_of_mem _ h1, h2⟩
      · intro hx
        rcases hx with rfl | ⟨hx1, hx2⟩
        · exact List.mem_cons_of_mem _ ((ih hnd.2 hex').mpr (Or.inl rfl))
        · rcases List.mem_cons.mp hx1 with rfl | hx'
          · exact List.mem_cons_self _ _
          · exact List.mem_cons_of_mem _
              ((ih hnd.2 hex').mpr (Or.inr ⟨hx', hx2⟩))

lemma map_rid_setHeldBy (rs : List Resource) (rid : String) (h : Option String) :
    (setHeldBy rs rid h).map (fun r => r.rid) = rs.map (fun r => r.rid) := by
  unfold setHeldBy
  rw [List.map_map]
  congr 1
  funext r
  by_cases hr : r.rid = rid <;> simp [hr]

lemma resource_unique {rs : List Resource}
    (hnd : (rs.map (fun r => r.rid)).Nodup) {r1 r2 : Resource}
    (h1 : r1 ∈ rs) (h2 : r2 ∈ rs) (hr : r1.rid = r2.rid) : r1 = r2 :=
  List.inj_on_of_nodup_map hnd h1 h2 hr

lemma process_unique {ps : List Process}
    (hnd : (ps.map (fun p => p.pid)).Nodup) {p1 p2 : Process}
    (h1 : p1 ∈ ps) (h2 : p2 ∈ ps) (hp : p1.pid = p2.pid) : p1 = p2 :=
  List.inj_on_of_nodup_map hnd h1 h2 hp

lemma LMInv_update_proc {s : SimState} (hinv : LMInv s) {proc p1 : Process}
    (hproc : proc ∈ s.processes) (hpid : p1.pid = proc.pid)
    (hheld : p1.held_resources = proc.held_resources) :
    LMInv { processes := updateFirstPid s.processes proc.pid p1,
            resources := s.resources } := by
  obtain ⟨hndp, hndr, hiff, hhold, hreal⟩ := hinv
  have hex : ∃ y ∈ s.processes, y.pid = proc.pid := ⟨proc, hproc, rfl⟩
  refine ⟨?_, hndr, ?_, ?_, ?_⟩
  · rw [map_pid_updateFirstPid hpid]
    exact hndp
  · intro r hr p hp
    rcases (mem_updateFirstPid_iff hndp hex).mp hp with rfl | ⟨hp1, _⟩
    · rw [hpid, hheld]
      exact hiff r hr proc hproc
    · exact hiff r hr p hp1
  · intro r hr q hq
    rcases hhold r hr q hq with ⟨p0, hp0, hp0pid⟩
    by_cases hcase : p0.pid = proc.pid
    · refine ⟨p1, mem_updateFirstPid_self hex, ?_⟩
      rw [hpid, ← hcase]
      exact hp0pid
    · exact ⟨p0, mem_updateFirstPid_of_ne hp0 hcase, hp0pid⟩
  · intro p hp rid hrid
    rcases (mem_updateFirstPid_iff hndp hex).mp hp with rfl | ⟨hp1, _⟩
    · rw [hheld] at hrid
      exact hreal proc hproc rid hrid
    · exact hreal p hp1 rid hrid

lemma LMInv_acquire {s : SimState} (hinv : LMInv s) {proc : Process}
    {resource : Resource} {rid : String}
    (hproc : proc ∈ s.processes)
    (hres : findRes s.resources rid = some resource)
    (hfree : resource.held_by = none) :
    LMInv { processes := updateFirstPid s.processes proc.pid
              { proc with held_resources := proc.held_resources.insert rid,
                          state := .RUNNING, current_request := none },
            resources := setHeldBy s.resources rid (some proc.pid) } := by
  obtain ⟨hndp, hndr, hiff, hhold, hreal⟩ := hinv
  obtain ⟨hresmem, hresrid⟩ := findRes_mem hres
  have hex : ∃ y ∈ s.processes, y.pid = proc.pid := ⟨proc, hproc, rfl⟩
  unfold LMInv
  dsimp only
  refine ⟨?_, ?_, ?_, ?_, ?_⟩
  · have h1 : ({ proc with held_resources := proc.held_resources.insert rid, state := .RUNNING, current_request := none } : Process).pid = proc.pid := rfl
    rw [map_pid_updateFirstPid h1]
    exact hndp
  · rw [map_rid_setHeldBy]
    exact hndr
  · intro r' hr' p hp
    rcases List.mem_map.mp hr' with ⟨r, hrmem, rfl⟩
    rcases (mem_updateFirstPid_iff hndp hex).mp hp with rfl | ⟨hpmem, hpne⟩
    · by_cases hrrid : r.rid = rid
      · have hr2 : r = resource :=
          resource_unique hndr hrmem hresmem (by rw [hrrid, hresrid])
        subst hr2
        simp [hrrid, List.mem_insert_iff]
      · have hold := hiff r hrmem proc hproc
        simp only [if_neg hrrid]
        simp only [List.mem_insert_iff]
        constructor
        · intro h
          exact Or.inr (hold.mp (by simpa using h))
        · intro h
          rcases h with h | h
          · exact absurd h hrrid
          · simpa using hold.mpr h
    · by_cases hrrid : r.rid = rid
      · have hr2 : r = resource :=
          resource_unique hndr hrmem hresmem (by rw [hrrid, hresrid])
        subst hr2
        have holdp := hiff r hrmem p hpmem
        rw [hfree] at holdp
        simp only [if_pos hrrid]
        constructor
        · intro h
          have : proc.pid = p.pid := by simpa using h
          exact absurd this.symm hpne
        · intro h
          exact absurd (holdp.mpr (by simpa using h)) (by simp)
      · simp only [if_neg hrrid]
        exact hiff r hrmem p hpmem
  · intro r' hr' q hq
    rcases List.mem_map.mp hr' with ⟨r, hrmem, rfl⟩
    by_cases hrrid : r.rid = rid
    · rw [if_pos hrrid] at hq
      have hpq : proc.pid = q := by simpa using hq
      exact ⟨_, mem_updateFirstPid_self hex, hpq⟩
    · rw [if_neg hrrid] at hq
      rcases hhold r hrmem q hq with ⟨p0, hp0, hp0pid⟩
      by_cases hcase : p0.pid = proc.pid
      · refine ⟨_, mem_updateFirstPid_self hex, ?_⟩
        show proc.pid = q
        rw [← hcase]
        exact hp0pid
      · exact ⟨p0, mem_updateFirstPid_of_ne hp0 hcase, hp0pid⟩
  · intro p hp x hx
    have himage : ∀ rr ∈ s.resources,
        ∃ r2 ∈ setHeldBy s.resources rid (some proc.pid), r2.rid = rr.rid := by
      intro rr hrr
      refine ⟨_, List.mem_map_of_mem _ hrr, ?_⟩
      by_cases h : rr.rid = rid <;> simp [h]
    rcases (mem_updateFirstPid_iff hndp hex).mp hp with rfl | ⟨hpmem, _⟩
    · simp only [List.mem_insert_iff] at hx
      rcases hx with rfl | hx
      · rcases himage resource hresmem with ⟨r2, hr2, hr2rid⟩
        exact ⟨r2, hr2, by rw [hr2rid, hresrid]⟩
      · rcases hreal proc hproc x hx with ⟨rr, hrr, hrrid⟩
        rcases himage rr hrr with ⟨r2, hr2, hr2rid⟩
        exact ⟨r2, hr2, by rw [hr2rid, hrrid]⟩
    · rcases hreal p hpmem x hx with ⟨rr, hrr, hrrid⟩
      rcases himage rr hrr with ⟨r2, hr2, hr2rid⟩
      exact ⟨r2, hr2, by rw [hr2rid, hrrid]⟩

lemma LMInv_release {s : SimState} (hinv : LMInv s) {proc : Process}
    (hproc : proc ∈ s.processes) :
    LMInv { processes := updateFirstPid s.processes proc.pid
              { proc with held_resources := [], current_request := none,
                          state := .FINISHED },
            resources := s.resources.map (fun r =>
              if r.rid ∈ proc.held_resources ∧ r.held_by = some proc.pid then
                { r with held_by := none }
              else r) } := by
  obtain ⟨hndp, hndr, hiff, hhold, hreal⟩ := hinv
  have hex : ∃ y ∈ s.processes, y.pid = proc.pid := ⟨proc, hproc, rfl⟩
  unfold LMInv
  dsimp only
  refine ⟨?_, ?_, ?_, ?_, ?_⟩
  · have h1 : ({ proc with held_resources := [], current_request := none, state := .FINISHED } : Process).pid = proc.pid := rfl
    rw [map_pid_updateFirstPid h1]
    exact hndp
  · rw [List.map_map]
    have : ((fun r : Resource => r.rid) ∘ (fun r =>
        if r.rid ∈ proc.held_resources ∧ r.held_by = some proc.pid then
          { r with held_by := none }
        else r)) = fun r : Resource => r.rid := by
      funext r
      by_cases h : r.rid ∈ proc.held_resources ∧ r.held_by = some proc.pid <;>
        simp [h]
    rw [this]
    exact hndr
  · intro r' hr' p hp
    rcases List.mem_map.mp hr' with ⟨r, hrmem, rfl⟩
    rcases (mem_updateFirstPid_iff hndp hex).mp hp with rfl | ⟨hpmem, hpne⟩
    · by_cases hcond : r.rid ∈ proc.held_resources ∧ r.held_by = some proc.pid
      · simp [hcond]
      · simp only [if_neg hcond]
        have hold := hiff r hrmem proc hproc
        constructor
        · intro h
          have hb : r.held_by = some proc.pid := by simpa using h
          exact absurd ⟨hold.mp hb, hb⟩ hcond
        · intro h
          simp at h
    · by_cases hcond : r.rid ∈ proc.held_resources ∧ r.held_by = some proc.pid
      · simp only [if_pos hcond]
        have hold := hiff r hrmem p hpmem
        constructor
        · intro h
          simp at h
        · intro h
          have hb := hold.mpr (by simpa using h)
          rw [hcond.2] at hb
          have : proc.pid = p.pid := by simpa using hb
          exact absurd this.symm hpne
      · simp only [if_neg hcond]
        exact hiff r hrmem p hpmem
  · intro r' hr' q hq
    rcases List.mem_map.mp hr' with ⟨r, hrmem, rfl⟩
    by_cases hcond : r.rid ∈ proc.held_resources ∧ r.held_by = some proc.pid
    · rw [if_pos hcond] at hq
      simp at hq
    · rw [if_neg hcond] at hq
      rcases hhold r hrmem q hq with ⟨p0, hp0, hp0pid⟩
      by_cases hcase : p0.pid = proc.pid
      · refine ⟨_, mem_updateFirstPid_self hex, ?_⟩
        show proc.pid = q
        rw [← hcase]
        exact hp0pid
      · exact ⟨p0, mem_updateFirstPid_of_ne hp0 hcase, hp0pid⟩
  · intro p hp x hx
    have himage : ∀ rr ∈ s.resources,
        ∃ r2 ∈ s.resources.map (fun r =>
          if r.rid ∈ proc.held_resources ∧ r.held_by = some proc.pid then
            { r with held_by := none }
          else r), r2.rid = rr.rid := by
      intro rr hrr
      refine ⟨_, List.mem_map_of_mem _ hrr, ?_⟩
      by_cases h : rr.rid ∈ proc.held_resources ∧ rr.held_by = some proc.pid <;>
        simp [h]
    rcases (mem_updateFirstPid_iff hndp hex).mp hp with rfl | ⟨hpmem, _⟩
    · simp at hx
    · rcases hreal p hpmem x hx with ⟨rr, hrr, hrrid⟩
      rcases himage rr hrr with ⟨r2, hr2, hr2rid⟩
      exact ⟨r2, hr2, by rw [hr2rid, hrrid]⟩

lemma lmApply_inv {s s' : SimState} {op : LMOp} (hinv : LMInv s)
    (happ : lmApply s op = some s') : LMInv s' := by
  cases op with
  | requestOp pid rid =>
    rw [lmApply] at happ
    cases hfp : s.processes.find? (fun p => p.pid = pid) with
    | none =>
      simp only [hfp] at happ
      exact Option.noConfusion happ
    | some proc =>
      simp only [hfp] at happ
      obtain ⟨hpmem, hppid⟩ := find?_pid_mem hfp
      rw [lmRequest] at happ
      cases hfr : findRes s.resources rid with
      | none =>
        simp only [hfr] at happ
        exact Option.noConfusion happ
      | some resource =>
        simp only [hfr] at happ
        by_cases hfree : resource.held_by = none
        · rw [if_pos hfree] at happ
          simp only [Option.map_some', Option.some.injEq] at happ
          subst happ
          rw [← hppid]
          exact LMInv_acquire hinv hpmem hfr hfree
        · rw [if_neg hfree] at happ
          by_cases hown : resource.held_by = some proc.pid
          · rw [if_pos hown] at happ
            simp only [Option.map_some', Option.some.injEq] at happ
            subst happ
            rw [← hppid]
            exact LMInv_update_proc hinv hpmem rfl rfl
          · rw [if_neg hown] at happ
            simp only [Option.map_some', Option.some.injEq] at happ
            subst happ
            rw [← hppid]
            exact LMInv_update_proc hinv hpmem rfl rfl
  | releaseAllOp pid =>
    rw [lmApply] at happ
    cases hfp : s.processes.find? (fun p => p.pid = pid) with
    | none =>
      simp only [hfp] at happ
      exact Option.noConfusion happ
    | some proc =>
      simp only [hfp] at happ
      obtain ⟨hpmem, hppid⟩ := find?_pid_mem hfp
      rw [lmReleaseAll] at happ
      by_cases hall : proc.held_resources.all
          (fun rid => (findRes s.resources rid).isSome) = true
      · rw [if_pos hall] at happ
        simp only [Option.map_some', Option.some.injEq] at happ
        subst happ
        rw [← hppid]
        exact LMInv_release hinv hpmem
      · rw [if_neg hall] at happ
        exact Option.noConfusion happ

lemma lmRun_inv {s s' : SimState} {ops : List LMOp} (hinv : LMInv s)
    (hrun : lmRun s ops = some s') : LMInv s' := by
  induction ops generalizing s with
  | nil =>
    rw [lmRun] at hrun
    obtain rfl : s = s' := by simpa using hrun
    exact hinv
  | cons op rest ih =>
    rw [lmRun] at hrun
    cases happ : lmApply s op with
    | none => rw [happ] at hrun; exact Option.noConfusion hrun
    | some s1 =>
      rw [happ] at hrun
      exact ih (lmApply_inv hinv happ) hrun

/-! ## Simulator run loop (claim C8) -/

lemma stopAfter_zero (ordered : Bool) (s : SimState) :
    stopAfter ordered s 0 =
      (stepSim ordered s).map (fun r => r.2 || allFinished r.1) := by
  rw [stopAfter, trajSim]

lemma stopAfter_succ_left (ordered : Bool) (n : Nat) {s : SimState}
    {s1 : SimState} {d : Bool} (h : stepSim ordered s = some (s1, d)) :
    stopAfter ordered s (n + 1) = stopAfter ordered s1 n := by
  rw [stopAfter, trajSim]
  simp only [h]
  rw [stopAfter]

/-- Full characterisation of the run loop: at most `n` steps are executed,
the result is the `k`-step trajectory state, no stop condition held after any
earlier step, and an early exit happened exactly at a step whose stop
condition held. -/
lemma runSim_spec (ordered : Bool) :
    ∀ (n : Nat) (s : SimState) (sf : SimState) (k : Nat),
      runSim ordered s n = some (sf, k) →
      k ≤ n ∧ trajSim ordered s k = some sf ∧
      (∀ i, i + 1 < k → stopAfter ordered s i = some false) ∧
      (k < n → 0 < k ∧ stopAfter ordered s (k - 1) = some true) := by
  intro n
  induction n with
  | zero =>
    intro s sf k h
    rw [runSim] at h
    simp only [Option.some.injEq, Prod.mk.injEq] at h
    obtain ⟨rfl, rfl⟩ := h
    exact ⟨le_refl 0, rfl, fun i hi => by omega, fun hc => by omega⟩
  | succ n ih =>
    intro s sf k h
    rw [runSim] at h
    cases hs : stepSim ordered s with
    | none => rw [hs] at h; exact Option.noConfusion h
    | some r =>
      rcases r with ⟨s1, d⟩
      simp only [hs] at h
      by_cases hstop : d = true ∨ allFinished s1 = true
      · rw [if_pos hstop] at h
        simp only [Option.some.injEq, Prod.mk.injEq] at h
        obtain ⟨rfl, rfl⟩ := h
        refine ⟨by omega, ?_, fun i hi => by omega, fun _ => ⟨by omega, ?_⟩⟩
        · rw [trajSim]
          simp only [hs]
          rw [trajSim]
        · rw [stopAfter_zero, hs]
          have hdf : (d || allFinished s1) = true := by
            rcases hstop with h1 | h1 <;> simp [h1]
          simp [hdf]
      · rw [if_neg hstop] at h
        cases hrec : runSim ordered s1 n with
        | none => rw [hrec] at h; exact Option.noConfusion h
        | some r1 =>
          rw [hrec] at h
          rcases r1 with ⟨sf1, k1⟩
          simp only [Option.some.injEq, Prod.mk.injEq] at h
          obtain ⟨rfl, rfl⟩ := h
          rcases ih s1 sf1 k1 hrec with ⟨hle, htraj, hflags, hlast⟩
          have hnostop : (d || allFinished s1) = false := by
            rcases not_or.mp hstop with ⟨h1, h2⟩
            simp [Bool.eq_false_iff.mpr h1, Bool.eq_false_iff.mpr h2]
          refine ⟨by omega, ?_, ?_, ?_⟩
          · rw [trajSim]
            simp only [hs]
            exact htraj
          · intro i hi
            cases i with
            | zero =>
              rw [stopAfter_zero, hs]
              simp [hnostop]
            | succ j =>
              rw [stopAfter_succ_left ordered j hs]
              exact hflags j (by omega)
          · intro hlt
            have hk1 : k1 < n := by omega
            rcases hlast hk1 with ⟨hk1pos, hstopk⟩
            refine ⟨by omega, ?_⟩
            have : k1 + 1 - 1 = (k1 - 1) + 1 := by omega
            rw [this, stopAfter_succ_left ordered (k1 - 1) hs]
            exact hstopk

lemma nextRequest_mem_plan {p : Process} {mode : Bool} {t : String}
    (h : nextRequest p mode = some t) : t ∈ p.plan := by
  unfold nextRequest at h
  by_cases hst : p.state = .BLOCKED ∨ p.state = .DEADLOCKED ∨ p.state = .FINISHED
  · rw [if_pos hst] at h
    exact Option.noConfusion h
  · rw [if_neg hst] at h
    by_cases hfil : p.plan.filter (fun r => ¬ r ∈ p.held_resources) = []
    · simp only [hfil, if_pos rfl] at h
      exact Option.noConfusion h
    · simp only [if_neg hfil] at h
      by_cases hmode : mode = true
      · rw [if_pos hmode] at h
        have hmem := List.mem_of_mem_head? h
        have hmem2 := (List.perm_insertionSort (α := String) (· ≤ ·) _).mem_iff.mp hmem
        exact (List.mem_filter.mp hmem2).1
      · rw [if_neg hmode] at h
        exact List.mem_of_find?_eq_some h

lemma findRes_map_isSome {rs : List Resource} {f : Resource → Resource}
    (hf : ∀ r, (f r).rid = r.rid) (x : String) :
    (findRes (rs.map f) x).isSome = (findRes rs x).isSome := by
  unfold findRes
  rw [List.find?_map]
  have hc : ((fun r : Resource => decide (r.rid = x)) ∘ f) =
      fun r : Resource => decide (r.rid = x) := by
    funext r
    rw [Function.comp_apply, hf]
  rw [hc]
  cases List.find? (fun r => decide (r.rid = x)) rs <;> rfl

lemma WfProc_congr_keys {rs rs' : List Resource} {p : Process}
    (hkeys : ∀ x, (findRes rs' x).isSome = (findRes rs x).isSome)
    (h : WfProc rs p) : WfProc rs' p := by
  obtain ⟨h1, h2, h3⟩ := h
  exact ⟨fun r hr => (hkeys r).trans (h1 r hr),
    fun r hr => (hkeys r).trans (h2 r hr),
    fun r hr => (hkeys r).trans (h3 r hr)⟩

lemma WfProc_congr_fields {rs : List Resource} {p q : Process}
    (hplan : p.plan = q.plan) (hheld : p.held_resources = q.held_resources)
    (hcur : p.current_request = q.current_request)
    (h : WfProc rs q) : WfProc rs p := by
  obtain ⟨h1, h2, h3⟩ := h
  refine ⟨?_, ?_, ?_⟩
  · rw [hplan]; exact h1
  · rw [hcur]; exact h2
  · rw [hheld]; exact h3

lemma lmRequest_isSome {proc : Process} {rs : List Resource} {rid : String}
    (hres : (findRes rs rid).isSome = true) :
    (lmRequest proc rs rid).isSome = true := by
  unfold lmRequest
  cases hfr : findRes rs rid with
  | none => rw [hfr] at hres; exact absurd hres (by simp)
  | some resource =>
    dsimp only
    by_cases h1 : resource.held_by = none
    · rw [if_pos h1]; rfl
    · rw [if_neg h1]
      by_cases h2 : resource.held_by = some proc.pid
      · rw [if_pos h2]; rfl
      · rw [if_neg h2]; rfl

lemma lmRequest_out {proc : Process} {rs : List Resource} {rid : String}
    {p' : Process} {rs' : List Resource} {b : Bool}
    (h : lmRequest proc rs rid = some (p', rs', b)) :
    p'.pid = proc.pid ∧ p'.plan = proc.plan ∧
    (∀ x ∈ p'.held_resources, x = rid ∨ x ∈ proc.held_resources) ∧
    (∀ x, p'.current_request = some x →
      x = rid ∨ proc.current_request = some x) ∧
    (∀ x, (findRes rs' x).isSome = (findRes rs x).isSome) ∧
    (p'.state = .RUNNING ∨ p'.state = .BLOCKED ∨ p'.state = proc.state) := by
  unfold lmRequest at h
  cases hfr : findRes rs rid with
  | none => rw [hfr] at h; exact Option.noConfusion h
  | some resource =>
    rw [hfr] at h
    dsimp only at h
    by_cases h1 : resource.held_by = none
    · rw [if_pos h1] at h
      simp only [Option.some.injEq, Prod.mk.injEq] at h
      obtain ⟨rfl, rfl, rfl⟩ := h
      refine ⟨rfl, rfl, ?_, ?_, ?_, Or.inl rfl⟩
      · intro x hx
        simpa using List.mem_insert_iff.mp hx
      · intro x hx
        exact Option.noConfusion hx
      · intro x
        exact findRes_map_isSome (fun r => by
          by_cases hr : r.rid = rid <;> simp [setHeldBy, hr]) x
    · rw [if_neg h1] at h
      by_cases h2 : resource.held_by = some proc.pid
      · rw [if_pos h2] at h
        simp only [Option.some.injEq, Prod.mk.injEq] at h
        obtain ⟨rfl, rfl, rfl⟩ := h
        exact ⟨rfl, rfl, fun x hx => Or.inr hx, fun x hx => Or.inr hx,
          fun x => rfl, Or.inr (Or.inr rfl)⟩
      · rw [if_neg h2] at h
        simp only [Option.some.injEq, Prod.mk.injEq] at h
        obtain ⟨rfl, rfl, rfl⟩ := h
        refine ⟨rfl, rfl, fun x hx => Or.inr hx, ?_, fun x => rfl,
          Or.inr (Or.inl rfl)⟩
        intro x hx
        simp only [markBlocked, Option.some.injEq] at hx
        exact Or.inl hx.symm

lemma lmReleaseAll_isSome {proc : Process} {rs : List Resource}
    (hwf : ∀ x ∈ proc.held_resources, (findRes rs x).isSome = true) :
    (lmReleaseAll proc rs).isSome = true := by
  unfold lmReleaseAll
  rw [if_pos (by
    rw [List.all_eq_true]
    intro x hx
    simpa using hwf x hx)]
  rfl

lemma lmReleaseAll_out {proc : Process} {rs : List Resource}
    {p' : Process} {rs' : List Resource}
    (h : lmReleaseAll proc rs = some (p', rs')) :
    p'.pid = proc.pid ∧ p'.plan = proc.plan ∧ p'.held_resources = [] ∧
    p'.current_request = none ∧ p'.state = .FINISHED ∧
    (∀ x, (findRes rs' x).isSome = (findRes rs x).isSome) := by
  unfold lmReleaseAll at h
  by_cases hall : proc.held_resources.all
      (fun rid => (findRes rs rid).isSome) = true
  · rw [if_pos hall] at h
    simp only [Option.some.injEq, Prod.mk.injEq] at h
    obtain ⟨rfl, rfl⟩ := h
    refine ⟨rfl, rfl, rfl, rfl, rfl, ?_⟩
    intro x
    exact findRes_map_isSome (fun r => by
      by_cases hr : r.rid ∈ proc.held_resources ∧ r.held_by = some proc.pid <;>
        simp [hr]) x
  · rw [if_neg hall] at h
    exact Option.noConfusion h

lemma wf_set_process {s : SimState} {i : Nat} {proc p' : Process}
    {rs' : List Resource}
    (hwf : WfState s) (_hget : s.processes.get? i = some proc)
    (hwfp' : WfProc s.resources p')
    (hkeys : ∀ x, (findRes rs' x).isSome = (findRes s.resources x).isSome) :
    WfState { processes := s.processes.set i p', resources := rs' } := by
  intro p hp
  rcases List.mem_or_eq_of_mem_set hp with hmem | rfl
  · exact WfProc_congr_keys hkeys (hwf p hmem)
  · exact WfProc_congr_keys hkeys hwfp'

lemma stepProcessAt_some_wf {ordered : Bool} {s : SimState} (i : Nat)
    (hwf : WfState s) :
    ∃ s', stepProcessAt ordered s i = some s' ∧ WfState s' ∧
      s'.processes.length = s.processes.length := by
  rw [stepProcessAt]
  cases hget : s.processes.get? i with
  | none => exact ⟨s, rfl, hwf, rfl⟩
  | some proc =>
    have hpmem : proc ∈ s.processes := List.get?_mem hget
    have hwfp := hwf proc hpmem
    dsimp only
    by_cases hterm : proc.state = .DEADLOCKED ∨ proc.state = .FINISHED
    · rw [if_pos hterm]
      exact ⟨s, rfl, hwf, rfl⟩
    · rw [if_neg hterm]
      by_cases hblocked : proc.state = .BLOCKED ∧ truthy proc.current_request
      · rw [if_pos hblocked]
        cases hcr : proc.current_request with
        | none => exact ⟨s, rfl, hwf, rfl⟩
        | some rid =>
          dsimp only
          have hres : (findRes s.resources rid).isSome = true :=
            hwfp.2.1 rid hcr
          rcases Option.isSome_iff_exists.mp
            (@lmRequest_isSome proc s.resources rid hres) with
            ⟨⟨p', rs', b⟩, hreq⟩
          rw [hreq]
          obtain ⟨_, hplan, hheld, hcur, hkeys, _⟩ := lmRequest_out hreq
          refine ⟨_, rfl, ?_, by simp⟩
          refine wf_set_process hwf hget ⟨?_, ?_, ?_⟩ hkeys
          · rw [hplan]; exact hwfp.1
          · intro x hx
            rcases hcur x hx with rfl | hold
            · exact hres
            · exact hwfp.2.1 x hold
          · intro x hx
            rcases hheld x hx with rfl | hold
            · exact hres
            · exact hwfp.2.2 x hold
      · rw [if_neg hblocked]
        by_cases hrun : proc.state = .RUNNING
        · rw [if_pos hrun]
          by_cases hall : hasAllResources proc = true
          · rw [if_pos hall]
            rcases Option.isSome_iff_exists.mp
              (lmReleaseAll_isSome (fun x hx => hwfp.2.2 x hx)) with
              ⟨⟨p', rs'⟩, hrel⟩
            rw [hrel]
            obtain ⟨_, hplan, hheld, hcur, _, hkeys⟩ := lmReleaseAll_out hrel
            refine ⟨_, rfl, ?_, by simp⟩
            refine wf_set_process hwf hget ⟨?_, ?_, ?_⟩ hkeys
            · rw [hplan]; exact hwfp.1
            · intro x hx
              rw [hcur] at hx
              exact Option.noConfusion hx
            · intro x hx
              rw [hheld] at hx
              simp at hx
          · rw [if_neg hall]
            cases hnext : nextRequest proc ordered with
            | none => exact ⟨s, rfl, hwf, rfl⟩
            | some target =>
              dsimp only
              have htmem : target ∈ proc.plan := nextRequest_mem_plan hnext
              have hres : (findRes s.resources target).isSome = true :=
                hwfp.1 target htmem
              by_cases htne : target ≠ ""
              · rw [if_pos htne]
                rcases Option.isSome_iff_exists.mp
                  (@lmRequest_isSome proc s.resources target hres) with
                  ⟨⟨p', rs', b⟩, hreq⟩
                rw [hreq]
                obtain ⟨_, hplan, hheld, hcur, hkeys, _⟩ := lmRequest_out hreq
                refine ⟨_, rfl, ?_, by simp⟩
                refine wf_set_process hwf hget ⟨?_, ?_, ?_⟩ hkeys
                · rw [hplan]; exact hwfp.1
                · intro x hx
                  rcases hcur x hx with rfl | hold
                  · exact hres
                  · exact hwfp.2.1 x hold
                · intro x hx
                  rcases hheld x hx with rfl | hold
                  · exact hres
                  · exact hwfp.2.2 x hold
              · rw [if_neg htne]
                exact ⟨s, rfl, hwf, rfl⟩
        · rw [if_neg hrun]
          exact ⟨s, rfl, hwf, rfl⟩

lemma completeSweepAt_some_wf {s : SimState} (i : Nat) (hwf : WfState s) :
    ∃ s', completeSweepAt s i = some s' ∧ WfState s' ∧
      s'.processes.length = s.processes.length := by
  rw [completeSweepAt]
  cases hget : s.processes.get? i with
  | none => exact ⟨s, rfl, hwf, rfl⟩
  | some proc =>
    have hpmem : proc ∈ s.processes := List.get?_mem hget
    have hwfp := hwf proc hpmem
    dsimp only
    by_cases hcond : proc.state = .RUNNING ∧ hasAllResources proc = true
    · rw [if_pos hcond]
      rcases Option.isSome_iff_exists.mp
        (lmReleaseAll_isSome (fun x hx => hwfp.2.2 x hx)) with
        ⟨⟨p', rs'⟩, hrel⟩
      rw [hrel]
      obtain ⟨_, hplan, hheld, hcur, _, hkeys⟩ := lmReleaseAll_out hrel
      refine ⟨_, rfl, ?_, by simp⟩
      refine wf_set_process hwf hget ⟨?_, ?_, ?_⟩ hkeys
      · rw [hplan]; exact hwfp.1
      · intro x hx
        rw [hcur] at hx
        exact Option.noConfusion hx
      · intro x hx
        rw [hheld] at hx
        simp at hx
    · rw [if_neg hcond]
      exact ⟨s, rfl, hwf, rfl⟩

lemma sweepM_some_wf {f : SimState → Nat → Option SimState}
    (hf : ∀ s i, WfState s →
      ∃ s', f s i = some s' ∧ WfState s' ∧
        s'.processes.length = s.processes.length) :
    ∀ (idxs : List Nat) (s : SimState), WfState s →
      ∃ s', sweepM f s idxs = some s' ∧ WfState s' ∧
        s'.processes.length = s.processes.length := by
  intro idxs
  induction idxs with
  | nil => exact fun s hwf => ⟨s, rfl, hwf, rfl⟩
  | cons i rest ih =>
    intro s hwf
    rcases hf s i hwf with ⟨s1, h1, hwf1, hlen1⟩
    rcases ih s1 hwf1 with ⟨s2, h2, hwf2, hlen2⟩
    refine ⟨s2, ?_, hwf2, by omega⟩
    rw [sweepM, h1]
    exact h2

lemma buildWFGAux_isSome {rs : List Resource} :
    ∀ (ps : List Process) (g0 : WFGraph),
      (∀ p ∈ ps, WfProc rs p) →
      (buildWFGAux ps rs g0).isSome = true := by
  intro ps
  induction ps with
  | nil => intro g0 _; rfl
  | cons p ps ih =>
    intro g0 hwf
    rw [buildWFGAux]
    have htail : ∀ q ∈ ps, WfProc rs q :=
      fun q hq => hwf q (List.mem_cons_of_mem p hq)
    by_cases hcond : p.state = .BLOCKED ∧ truthy p.current_request
    · rw [if_pos hcond]
      cases hcr : p.current_request with
      | none => exact ih g0 htail
      | some req =>
        dsimp only
        have hres := (hwf p (List.mem_cons_self p ps)).2.1 req hcr
        rcases Option.isSome_iff_exists.mp hres with ⟨resource, hfr⟩
        rw [hfr]
        dsimp only
        cases resource.held_by with
        | none => exact ih g0 htail
        | some holder =>
          dsimp only
          by_cases hne : holder ≠ "" ∧ holder ≠ p.pid
          · rw [if_pos hne]
            exact ih _ htail
          · rw [if_neg hne]
            exact ih g0 htail
    · rw [if_neg hcond]
      exact ih g0 htail

lemma detect_deadlock_isSome {s : SimState} (hwf : WfState s) :
    (detect_deadlock s.processes s.resources).isSome = true := by
  have h := buildWFGAux_isSome s.processes [] (fun p hp => hwf p hp)
  rcases Option.isSome_iff_exists.mp h with ⟨g, hg⟩
  have hbg : buildWFG s.processes s.resources = some g := hg
  rw [detect_deadlock, hbg]
  rfl

lemma markPid_fields : ∀ (ps : List Process) (pid : String),
    ∀ p ∈ markPid ps pid,
      ∃ q ∈ ps, p.plan = q.plan ∧ p.held_resources = q.held_resources ∧
        p.current_request = q.current_request := by
  intro ps
  induction ps with
  | nil => intro pid p hp; simp [markPid] at hp
  | cons y ys ih =>
    intro pid p hp
    rw [markPid] at hp
    by_cases hy : y.pid = pid
    · rw [if_pos hy] at hp
      rcases List.mem_cons.mp hp with rfl | hp'
      · exact ⟨y, List.mem_cons_self _ _, rfl, rfl, rfl⟩
      · exact ⟨p, List.mem_cons_of_mem _ hp', rfl, rfl, rfl⟩
    · rw [if_neg hy] at hp
      rcases List.mem_cons.mp hp with rfl | hp'
      · exact ⟨p, List.mem_cons_self _ _, rfl, rfl, rfl⟩
      · rcases ih pid p hp' with ⟨q, hq, h1, h2, h3⟩
        exact ⟨q, List.mem_cons_of_mem _ hq, h1, h2, h3⟩

lemma markCycle_fields : ∀ (cycle : List String) (ps : List Process),
    ∀ p ∈ markCycle ps cycle,
      ∃ q ∈ ps, p.plan = q.plan ∧ p.held_resources = q.held_resources ∧
        p.current_request = q.current_request := by
  intro cycle
  induction cycle with
  | nil => intro ps p hp; exact ⟨p, hp, rfl, rfl, rfl⟩
  | cons c rest ih =>
    intro ps p hp
    rw [markCycle] at hp
    rw [List.foldl_cons] at hp
    rcases ih (markPid ps c) p hp with ⟨q, hq, h1, h2, h3⟩
    rcases markPid_fields ps c q hq with ⟨q', hq', h1', h2', h3'⟩
    exact ⟨q', hq', h1.trans h1', h2.trans h2', h3.trans h3'⟩

lemma stepSim_some_wf {ordered : Bool} {s : SimState} (hwf : WfState s) :
    ∃ s' d, stepSim ordered s = some (s', d) ∧ WfState s' := by
  rcases sweepM_some_wf (fun s i => @stepProcessAt_some_wf ordered s i)
    (List.range s.processes.length) s hwf with ⟨s1, h1, hwf1, _⟩
  rcases sweepM_some_wf (fun s i => completeSweepAt_some_wf i)
    (List.range s1.processes.length) s1 hwf1 with ⟨s2, h2, hwf2, _⟩
  rcases Option.isSome_iff_exists.mp (detect_deadlock_isSome hwf2) with
    ⟨r, hdet⟩
  simp only [stepSim, h1, h2, hdet]
  by_cases hr : r.1 = true
  · rw [if_pos hr]
    refine ⟨_, true, rfl, ?_⟩
    intro p hp
    simp only at hp
    rcases markCycle_fields r.2.2 s2.processes p hp with ⟨q, hq, h1', h2', h3'⟩
    exact WfProc_congr_fields h1' h2' h3' (hwf2 q hq)
  · rw [if_neg hr]
    exact ⟨s2, false, rfl, hwf2⟩

lemma runSim_isSome {ordered : Bool} :
    ∀ (n : Nat) (s : SimState), WfState s →
      (runSim ordered s n).isSome = true := by
  intro n
  induction n with
  | zero => intro s _; rfl
  | succ n ih =>
    intro s hwf
    rcases @stepSim_some_wf ordered s hwf with ⟨s1, d, hstep, hwf1⟩
    rw [runSim, hstep]
    dsimp only
    by_cases hstop : d = true ∨ allFinished s1 = true
    · rw [if_pos hstop]; rfl
    · rw [if_neg hstop]
      rcases Option.isSome_iff_exists.mp (ih s1 hwf1) with ⟨⟨sf, k⟩, hrec⟩
      rw [hrec]
      rfl

/-! ## Detector purity (claim C10) -/

lemma get?_set_cases {ps : List Process} {i j : Nat} {q p' : Process}
    (h : (ps.set i q).get? j = some p') :
    (j = i ∧ p' = q) ∨ (ps.get? j = some p') := by
  by_cases hij : j = i
  · subst hij
    rw [List.get?_set_eq] at h
    cases hg : ps.get? j with
    | none => rw [hg] at h; exact Option.noConfusion h
    | some p0 =>
      rw [hg] at h
      simp at h
      exact Or.inl ⟨rfl, h.symm⟩
  · rw [List.get?_set_ne _ _ (fun hc => hij hc.symm)] at h
    exact Or.inr h

lemma stepProcessAt_no_new_deadlock {ordered : Bool} {s : SimState} {i : Nat}
    {s' : SimState} (h : stepProcessAt ordered s i = some s') :
    ∀ j p', s'.processes.get? j = some p' → p'.state = .DEADLOCKED →
      ∃ p, s.processes.get? j = some p ∧ p.state = .DEADLOCKED := by
  rw [stepProcessAt] at h
  cases hget : s.processes.get? i with
  | none =>
    rw [hget] at h
    obtain rfl : s = s' := by simpa using h
    exact fun j p' hj hd => ⟨p', hj, hd⟩
  | some proc =>
    rw [hget] at h
    dsimp only at h
    by_cases hterm : proc.state = .DEADLOCKED ∨ proc.state = .FINISHED
    · rw [if_pos hterm] at h
      obtain rfl : s = s' := by simpa using h
      exact fun j p' hj hd => ⟨p', hj, hd⟩
    · rw [if_neg hterm] at h
      have hset : ∀ (q : Process) (rs' : List Resource),
          s' = { processes := s.processes.set i q, resources := rs' } →
          q.state ≠ .DEADLOCKED →
          ∀ j p', s'.processes.get? j = some p' → p'.state = .DEADLOCKED →
            ∃ p, s.processes.get? j = some p ∧ p.state = .DEADLOCKED := by
        intro q rs' hs' hq j p' hj hd
        rw [hs'] at hj
        rcases get?_set_cases hj with ⟨rfl, rfl⟩ | hold
        · exact absurd hd hq
        · exact ⟨p', hold, hd⟩
      by_cases hblocked : proc.state = .BLOCKED ∧ truthy proc.current_request
      · rw [if_pos hblocked] at h
        cases hcr : proc.current_request with
        | none =>
          rw [hcr] at h
          obtain rfl : s = s' := by simpa using h
          exact fun j p' hj hd => ⟨p', hj, hd⟩
        | some rid =>
          rw [hcr] at h
          dsimp only at h
          cases hreq : lmRequest proc s.resources rid with
          | none => rw [hreq] at h; exact Option.noConfusion h
          | some out =>
            rw [hreq] at h
            rcases out with ⟨p1, rs1, b⟩
            simp only [Option.map_some', Option.some.injEq] at h
            obtain ⟨_, _, _, _, _, hstate⟩ := lmRequest_out hreq
            refine hset p1 rs1 h.symm ?_
            rcases hstate with h1 | h1 | h1 <;> rw [h1]
            · simp
            · simp
            · intro hc
              exact hterm (Or.inl hc)
      · rw [if_neg hblocked] at h
        by_cases hrun : proc.state = .RUNNING
        · rw [if_pos hrun] at h
          by_cases hall : hasAllResources proc = true
          · rw [if_pos hall] at h
            cases hrel : lmReleaseAll proc s.resources with
            | none => rw [hrel] at h; exact Option.noConfusion h
            | some out =>
              rw [hrel] at h
              rcases out with ⟨p1, rs1⟩
              simp only [Option.map_some', Option.some.injEq] at h
              obtain ⟨_, _, _, _, hstate, _⟩ := lmReleaseAll_out hrel
              refine hset p1 rs1 h.symm ?_
              rw [hstate]
              simp
          · rw [if_neg hall] at h
            cases hnext : nextRequest proc ordered with
            | none =>
              rw [hnext] at h
              obtain rfl : s = s' := by simpa using h
              exact fun j p' hj hd => ⟨p', hj, hd⟩
            | some target =>
              rw [hnext] at h
              dsimp only at h
              by_cases htne : target ≠ ""
              · rw [if_pos htne] at h
                cases hreq : lmRequest proc s.resources target with
                | none => rw [hreq] at h; exact Option.noConfusion h
                | some out =>
                  rw [hreq] at h
                  rcases out with ⟨p1, rs1, b⟩
                  simp only [Option.map_some', Option.some.injEq] at h
                  obtain ⟨_, _, _, _, _, hstate⟩ := lmRequest_out hreq
                  refine hset p1 rs1 h.symm ?_
                  rcases hstate with h1 | h1 | h1 <;> rw [h1]
                  · simp
                  · simp
                  · intro hc
                    exact hterm (Or.inl hc)
              · rw [if_neg htne] at h
                obtain rfl : s = s' := by simpa using h
                exact fun j p' hj hd => ⟨p', hj, hd⟩
        · rw [if_neg hrun] at h
          obtain rfl : s = s' := by simpa using h
          exact fun j p' hj hd => ⟨p', hj, hd⟩

lemma completeSweepAt_no_new_deadlock {s : SimState} {i : Nat}
    {s' : SimState} (h : completeSweepAt s i = some s') :
    ∀ j p', s'.processes.get? j = some p' → p'.state = .DEADLOCKED →
      ∃ p, s.processes.get? j = some p ∧ p.state = .DEADLOCKED := by
  rw [completeSweepAt] at h
  cases hget : s.processes.get? i with
  | none =>
    rw [hget] at h
    obtain rfl : s = s' := by simpa using h
    exact fun j p' hj hd => ⟨p', hj, hd⟩
  | some proc =>
    rw [hget] at h
    dsimp only at h
    by_cases hcond : proc.state = .RUNNING ∧ hasAllResources proc = true
    · rw [if_pos hcond] at h
      cases hrel : lmReleaseAll proc s.resources with
      | none => rw [hrel] at h; exact Option.noConfusion h
      | some out =>
        rw [hrel] at h
        rcases out with ⟨p1, rs1⟩
        simp only [Option.map_some', Option.some.injEq] at h
        obtain ⟨_, _, _, _, hstate, _⟩ := lmReleaseAll_out hrel
        intro j p' hj hd
        rw [← h] at hj
        rcases get?_set_cases hj with ⟨rfl, rfl⟩ | hold
        · rw [hstate] at hd
          exact absurd hd (by simp)
        · exact ⟨p', hold, hd⟩
    · rw [if_neg hcond] at h
      obtain rfl : s = s' := by simpa using h
      exact fun j p' hj hd => ⟨p', hj, hd⟩

lemma sweepM_no_new_deadlock {f : SimState → Nat → Option SimState}
    (hf : ∀ s i s', f s i = some s' →
      ∀ j p', s'.processes.get? j = some p' → p'.state = .DEADLOCKED →
        ∃ p, s.processes.get? j = some p ∧ p.state = .DEADLOCKED) :
    ∀ (idxs : List Nat) (s s' : SimState), sweepM f s idxs = some s' →
      ∀ j p', s'.processes.get? j = some p' → p'.state = .DEADLOCKED →
        ∃ p, s.processes.get? j = some p ∧ p.state = .DEADLOCKED := by
  intro idxs
  induction idxs with
  | nil =>
    intro s s' h j p' hj hd
    rw [sweepM] at h
    obtain rfl : s = s' := by simpa using h
    exact ⟨p', hj, hd⟩
  | cons i rest ih =>
    intro s s' h j p' hj hd
    rw [sweepM] at h
    cases h1 : f s i with
    | none => rw [h1] at h; exact Option.noConfusion h
    | some s1 =>
      rw [h1] at h
      rcases ih s1 s' h j p' hj hd with ⟨p1, hp1, hp1d⟩
      exact hf s i s1 h1 j p1 hp1 hp1d

/-! ## Claim theorems -/

/-- C1.  Soundness of cycle discovery: whenever `_find_cycle` returns a cycle
`c`, `c` is nonempty, its first and last elements are equal, and every
consecutive pair of `c` is an edge of the wait-for graph. -/
theorem claim_C1_cycle_sound (g : WFGraph) (c : List String)
    (h : find_cycle g = some c) :
    c ≠ [] ∧ c.head? = c.getLast? ∧ List.Chain' (Edge g) c := by
  unfold find_cycle at h
  exact findCycleLoop_sound (g.map (fun e => e.1)) [] c h

/-- Witness for C1 on a concrete two-node cycle. -/
theorem claim_C1_cycle_sound_witness :
    find_cycle cyclicGraphW = some ["P1", "P2", "P1"] ∧
    (["P1", "P2", "P1"] ≠ ([] : List String) ∧
      (["P1", "P2", "P1"] : List String).head? =
        (["P1", "P2", "P1"] : List String).getLast? ∧
      List.Chain' (Edge cyclicGraphW) ["P1", "P2", "P1"]) :=
  ⟨by decide, claim_C1_cycle_sound cyclicGraphW ["P1", "P2", "P1"] (by decide)⟩

/-- C2.  Completeness of cycle discovery: if the wait-for graph contains any
cycle, `_find_cycle` does not return `None`; consequently `detect_deadlock`
reports `has_deadlock = true` whenever the graph built from the given
processes and resources contains a cycle. -/
theorem claim_C2_cycle_complete :
    (∀ g : WFGraph, HasCycle g → (find_cycle g).isSome = true) ∧
    (∀ (processes : List Process) (resources : List Resource) (g : WFGraph),
      buildWFG processes resources = some g → HasCycle g →
      ∃ edges cycle,
        detect_deadlock processes resources = some (true, edges, cycle)) := by
  constructor
  · exact fun g h => find_cycle_isSome h
  · intro ps rs g hb hc
    refine ⟨g.foldr (fun e acc => (e.2.map (fun v => (e.1, v))) ++ acc) [],
      (find_cycle g).getD [], ?_⟩
    unfold detect_deadlock
    rw [hb]
    show some ((find_cycle g).isSome, _, _) = _
    rw [find_cycle_isSome hc]

/-- Witness for C2 on a concrete cyclic configuration. -/
theorem claim_C2_cycle_complete_witness :
    (find_cycle cyclicGraphW).isSome = true ∧
    ∃ edges cycle,
      detect_deadlock deadlockProcsW deadlockResW = some (true, edges, cycle) := by
  have e1 : Edge cyclicGraphW "P1" "P2" := by decide
  have e2 : Edge cyclicGraphW "P2" "P1" := by decide
  have hcyc : HasCycle cyclicGraphW :=
    ⟨"P1", Relation.TransGen.head e1 (Relation.TransGen.single e2)⟩
  exact ⟨claim_C2_cycle_complete.1 cyclicGraphW hcyc,
    claim_C2_cycle_complete.2 deadlockProcsW deadlockResW cyclicGraphW
      (by decide) hcyc⟩

/-- C5.  Next-request selection: a `BLOCKED`, `DEADLOCKED` or `FINISHED`
process gets `None`; a `RUNNING` process whose plan is fully held gets
`None`; otherwise `ordered` mode yields the lexicographically smallest
unheld plan resource and `naive` mode yields the first unheld resource in
declared plan order. -/
theorem claim_C5_next_request (p : Process) :
    ((p.state = .BLOCKED ∨ p.state = .DEADLOCKED ∨ p.state = .FINISHED) →
      ∀ mode, nextRequest p mode = none) ∧
    (p.state = .RUNNING →
      ((∀ r ∈ p.plan, r ∈ p.held_resources) → ∀ mode, nextRequest p mode = none) ∧
      ((∃ r ∈ p.plan, r ∉ p.held_resources) →
        (∃ m, nextRequest p true = some m ∧ m ∈ p.plan ∧ m ∉ p.held_resources ∧
          ∀ r ∈ p.plan, r ∉ p.held_resources → m ≤ r) ∧
        nextRequest p false =
          (p.plan.filter (fun r => ¬ r ∈ p.held_resources)).head?)) := by
  constructor
  · intro hst mode
    unfold nextRequest
    rw [if_pos hst]
  · intro hrun
    have hnot : ¬ (p.state = .BLOCKED ∨ p.state = .DEADLOCKED ∨ p.state = .FINISHED) := by
      rw [hrun]; intro hc; rcases hc with hc | hc | hc <;> exact absurd hc (by simp)
    constructor
    · intro hall mode
      have hfil : p.plan.filter (fun r => ¬ r ∈ p.held_resources) = [] := by
        rw [List.filter_eq_nil_iff]
        intro r hr
        simpa using hall r hr
      simp only [nextRequest, if_neg hnot, if_pos hfil]
    · intro ⟨r0, hr0, hr0h⟩
      have hfil : p.plan.filter (fun r => ¬ r ∈ p.held_resources) ≠ [] := by
        intro hc
        rw [List.filter_eq_nil_iff] at hc
        have := hc r0 hr0
        simp at this
        exact hr0h this
      constructor
      · rcases insertionSort_head_least _ hfil with ⟨m, hm, hmem, hleast⟩
        refine ⟨m, ?_, ?_, ?_, ?_⟩
        · simp only [nextRequest, if_neg hnot, if_neg hfil, if_pos rfl]
          exact hm
        · exact (List.mem_filter.mp hmem).1
        · simpa using (List.mem_filter.mp hmem).2
        · intro r hr hrh
          exact hleast r (List.mem_filter.mpr ⟨hr, by simpa using hrh⟩)
      · simp only [nextRequest, if_neg hnot, if_neg hfil]
        rw [if_neg (by simp)]
        exact find?_eq_head?_filter _ _

/-- Witness for C5 on a concrete process. -/
theorem claim_C5_next_request_witness :
    (({ pid := "P1", plan := ["R2", "R1"] } : Process).state = .RUNNING) ∧
    (∃ r ∈ ({ pid := "P1", plan := ["R2", "R1"] } : Process).plan,
      r ∉ ({ pid := "P1", plan := ["R2", "R1"] } : Process).held_resources) ∧
    (∃ m, nextRequest { pid := "P1", plan := ["R2", "R1"] } true = some m ∧
      m ∈ ["R2", "R1"] ∧ m ∉ ([] : List String) ∧
      ∀ r ∈ ["R2", "R1"], r ∉ ([] : List String) → m ≤ r) ∧
    nextRequest { pid := "P1", plan := ["R2", "R1"] } false =
      (["R2", "R1"].filter (fun r => ¬ r ∈ ([] : List String))).head? := by
  refine ⟨rfl, ⟨"R2", by simp⟩, ?_⟩
  have h := (claim_C5_next_request { pid := "P1", plan := ["R2", "R1"] }).2 rfl
  exact h.2 ⟨"R2", by simp⟩

/-- C6, counterexample.  At `remaining = [0]` (a vector of non-negative
integers) the all-zero fallback forces `request[0] = 1`, violating
`req[r] ∈ [0, remaining[r]]`; the fallback index is `randrange(1) = 0`, the
only value Python's `randrange` can produce there. -/
theorem claim_C6_counterexample :
    (∀ x ∈ [(0 : Int)], 0 ≤ x) ∧
    build_request (fun _ n => n) (fun _ => 0) [0] = some [1] ∧
    ¬ ((1 : Int) ≤ 0) := by
  refine ⟨by decide, ?_, by decide⟩
  rfl

/-- C6, amended.  For a non-negative `remaining` with at least one positive
component, `_build_request` returns a vector of the same length with
`req[r] ∈ [0, remaining[r]]` for every class; when the per-class draws are
all zero — which happens exactly when every component is zero — and the
vector is nonempty, the result sets exactly one component to 1 and every
other component to 0. -/
theorem claim_C6_build_request (rand : Nat → Int → Int) (pick : Nat → Nat)
    (remaining : List Int)
    (hrand : ∀ i n, 0 < n → 1 ≤ rand i n ∧ rand i n ≤ n)
    (hnn : ∀ x ∈ remaining, 0 ≤ x) :
    ((∃ x ∈ remaining, 0 < x) →
      ∃ req, build_request rand pick remaining = some req ∧
        req.length = remaining.length ∧
        ∀ i, i < remaining.length →
          ∃ a b, req.get? i = some a ∧ remaining.get? i = some b ∧
            0 ≤ a ∧ a ≤ b) ∧
    ((∀ x ∈ remaining, x = 0) → remaining ≠ [] →
      pick remaining.length < remaining.length →
      ∃ req, build_request rand pick remaining = some req ∧
        req.get? (pick remaining.length) = some 1 ∧
        ∀ j, j < remaining.length → j ≠ pick remaining.length →
          req.get? j = some 0) := by
  have hlen : (buildRequestDraws rand remaining).length = remaining.length := by
    rw [buildRequestDraws, List.length_map, List.enum_length]
  have hget : ∀ i b, remaining.get? i = some b →
      (buildRequestDraws rand remaining).get? i =
        some (if b ≤ 0 then 0 else rand i b) := by
    intro i b hb
    rw [buildRequestDraws, List.get?_map, List.get?_enum, hb]
    rfl
  constructor
  · intro ⟨x, hx, hxpos⟩
    rcases List.get_of_mem hx with ⟨⟨i, hi⟩, rfl⟩
    have hgi : remaining.get? i = some (remaining.get ⟨i, hi⟩) :=
      List.get?_eq_get hi
    have hri : (buildRequestDraws rand remaining).get? i =
        some (rand i (remaining.get ⟨i, hi⟩)) := by
      rw [hget i _ hgi, if_neg (by omega)]
    have hfalse : (buildRequestDraws rand remaining).all (fun v => v = 0) = false := by
      rw [Bool.eq_false_iff]
      intro hc
      rw [List.all_eq_true] at hc
      have hmem : rand i (remaining.get ⟨i, hi⟩) ∈ buildRequestDraws rand remaining :=
        List.get?_mem hri
      have h0 : rand i (remaining.get ⟨i, hi⟩) = 0 := by simpa using hc _ hmem
      have h1 := (hrand i _ hxpos).1
      omega
    refine ⟨buildRequestDraws rand remaining, ?_, hlen, ?_⟩
    · rw [build_request, hfalse]
      simp
    · intro i hi
      rcases List.get?_eq_get hi with hb
      refine ⟨_, remaining.get ⟨i, hi⟩, hget i _ hb, hb, ?_⟩
      by_cases hble : remaining.get ⟨i, hi⟩ ≤ 0
      · rw [if_pos hble]
        have := hnn _ (List.get_mem remaining i hi)
        omega
      · rw [if_neg hble]
        have := hrand i (remaining.get ⟨i, hi⟩) (by omega)
        omega
  · intro hzero hne hpick
    have hallz : ∀ i v, (buildRequestDraws rand remaining).get? i = some v →
        v = 0 := by
      intro i v hv
      have hi : i < remaining.length := by
        rcases List.get?_eq_some.mp hv with ⟨h, _⟩
        omega
      rcases List.get?_eq_get hi with hb
      rw [hget i _ hb] at hv
      have hz := hzero _ (List.get_mem remaining i hi)
      rw [hz] at hv
      simp at hv
      omega
    have htrue : (buildRequestDraws rand remaining).all (fun v => v = 0) = true := by
      rw [List.all_eq_true]
      intro v hv
      rcases List.get?_of_mem hv with ⟨n, hn⟩
      simpa using hallz n v hn
    refine ⟨(buildRequestDraws rand remaining).set (pick remaining.length) 1,
      ?_, ?_, ?_⟩
    · rw [build_request, htrue]
      simp only [if_pos rfl]
      rw [if_neg (fun hc => hne (List.length_eq_zero.mp hc))]
      simp
    · rw [List.get?_set_eq]
      have hi : pick remaining.length < (buildRequestDraws rand remaining).length := by
        omega
      rcases List.get?_eq_get hi with hb
      rw [hb]
      rfl
    · intro j hj hjne
      rw [List.get?_set_ne _ _ (fun hc => hjne hc.symm)]
      have hj' : j < (buildRequestDraws rand remaining).length := by omega
      rcases List.get?_eq_get hj' with hb
      rw [hb]
      exact congrArg some (hallz j _ hb)

/-- Witness for C6 at a concrete vector and a concrete in-range rng. -/
theorem claim_C6_build_request_witness :
    (∀ i n, 0 < n → 1 ≤ (fun (_ : Nat) (n : Int) => n) i n ∧
      (fun (_ : Nat) (n : Int) => n) i n ≤ n) ∧
    (∀ x ∈ [(2 : Int), 0], 0 ≤ x) ∧
    (∃ x ∈ [(2 : Int), 0], 0 < x) ∧
    (∃ req, build_request (fun _ n => n) (fun _ => 0) [2, 0] = some req ∧
      req.length = ([2, 0] : List Int).length ∧
      ∀ i, i < ([2, 0] : List Int).length →
        ∃ a b, req.get? i = some a ∧ ([2, 0] : List Int).get? i = some b ∧
          0 ≤ a ∧ a ≤ b) := by
  refine ⟨fun i n h => ⟨h, le_refl n⟩, by decide, ⟨2, by decide⟩, ?_⟩
  exact (claim_C6_build_request (fun _ n => n) (fun _ => 0) [2, 0]
    (fun i n h => ⟨h, le_refl n⟩) (by decide)).1 ⟨2, by decide⟩

/-- C4, counterexample.  The failure path of `NaiveWorker.run` calls
`record_end("erro")` — the emitted status is the literal `"erro"`, not
`"error"` as the claim states. -/
theorem claim_C4_counterexample :
    (naiveRunRecords true (record_start (initWorker "P1")) 0 true).map
      (fun m => m.status) = ["erro"] ∧
    ("erro" : String) ≠ "ok" ∧ ("erro" : String) ≠ "error" := by
  exact ⟨rfl, by decide, by decide⟩

/-- C4, amended.  Every metric record emitted by `Worker.record_end` on a
`NaiveWorker` run with a metrics queue attached has status `"ok"` or
`"erro"` (the code's literal, not the spec's `"error"`), `retries ≥ 0` and
`wait_time ≥ 0`; a run terminated by an unhandled exception emits exactly
one record and its status is `"erro"`. -/
theorem claim_C4_metric_record (name : String) (ops : List WorkerOp)
    (elapsed : ℚ) (raised : Bool) (m : MetricRecord)
    (hm : m ∈ naiveRunRecords true
      (runWorkerOps (record_start (initWorker name)) ops) elapsed raised) :
    (m.status = "ok" ∨ m.status = "erro") ∧
    0 ≤ m.retries ∧ 0 ≤ m.wait_time ∧
    naiveRunRecords true (runWorkerOps (record_start (initWorker name)) ops)
      elapsed raised = [m] ∧
    (raised = true → m.status = "erro") := by
  have hw0 : (0 : Int) ≤ (record_start (initWorker name)).retries := by
    simp [record_start, initWorker]
  have hwt0 : (0 : ℚ) ≤ (record_start (initWorker name)).wait_time := by
    simp [record_start, initWorker]
  have hm' : m =
      { name := (runWorkerOps (record_start (initWorker name)) ops).name,
        status := if raised then "erro" else "ok",
        retries := (runWorkerOps (record_start (initWorker name)) ops).retries,
        duration :=
          if (runWorkerOps (record_start (initWorker name)) ops).has_started then
            some (round3 elapsed)
          else none,
        wait_time :=
          round3 (runWorkerOps (record_start (initWorker name)) ops).wait_time } := by
    simpa [naiveRunRecords, record_end] using hm
  subst hm'
  refine ⟨?_, ?_, ?_, ?_, ?_⟩
  · cases raised <;> simp
  · exact runWorkerOps_retries_nonneg ops hw0
  · exact round3_nonneg (runWorkerOps_wait_nonneg ops hwt0)
  · simp [naiveRunRecords, record_end]
  · intro hr; simp [hr]

/-- Witness for C4 (amended) on a concrete failed run. -/
theorem claim_C4_metric_record_witness :
    metricW ∈ naiveRunRecords true
      (runWorkerOps (record_start (initWorker "P1")) [WorkerOp.retryOp]) 2 true ∧
    ((metricW.status = "ok" ∨ metricW.status = "erro") ∧
     0 ≤ metricW.retries ∧ 0 ≤ metricW.wait_time ∧
     naiveRunRecords true
       (runWorkerOps (record_start (initWorker "P1")) [WorkerOp.retryOp]) 2 true =
       [metricW] ∧
     (true = true → metricW.status = "erro")) :=
  ⟨List.mem_singleton.mpr rfl,
   claim_C4_metric_record "P1" [WorkerOp.retryOp] 2 true metricW
     (List.mem_singleton.mpr rfl)⟩

/-- C3.  Wait-for graph construction: in any configuration without the
degenerate empty-string identifiers (which Python's truthiness tests elide),
the built graph has edge `p → q` exactly when some process with pid `p` is
`BLOCKED` on a pending request whose resource is held by `q ≠ p`; in
particular self-loops never appear. -/
theorem claim_C3_wait_for_graph (ps : List Process) (rs : List Resource)
    (g : WFGraph) (hg : buildWFG ps rs = some g)
    (hreq : ∀ p ∈ ps, p.current_request ≠ some "")
    (hheld : ∀ r ∈ rs, r.held_by ≠ some "") :
    (∀ a b, Edge g a b ↔
      ∃ p ∈ ps, p.pid = a ∧ p.state = .BLOCKED ∧
        ∃ req, p.current_request = some req ∧
          ∃ res, findRes rs req = some res ∧ res.held_by = some b ∧ b ≠ a) ∧
    (∀ a, ¬ Edge g a a) := by
  have hmain : ∀ a b, Edge g a b ↔
      ∃ p ∈ ps, p.pid = a ∧ p.state = .BLOCKED ∧
        ∃ req, p.current_request = some req ∧
          ∃ res, findRes rs req = some res ∧ res.held_by = some b ∧ b ≠ a := by
    intro a b
    unfold buildWFG at hg
    rw [buildWFGAux_edge ps [] g hg a b]
    constructor
    · intro hor
      rcases hor with h1 | ⟨p, hp, hpid, hblocked, r, hr, _, res, hres, hresb, _, hbp⟩
      · exact absurd h1 (edge_nil a b)
      · exact ⟨p, hp, hpid, hblocked, r, hr, res, hres, hresb, hpid ▸ hbp⟩
    · intro ⟨p, hp, hpid, hblocked, req, hr, res, hres, hresb, hba⟩
      refine Or.inr ⟨p, hp, hpid, hblocked, req, hr, ?_, res, hres, hresb, ?_, ?_⟩
      · intro hc
        exact hreq p hp (hc ▸ hr)
      · intro hc
        exact hheld res (List.mem_of_find?_eq_some hres) (hc ▸ hresb)
      · exact hpid ▸ hba
  refine ⟨hmain, fun a hc => ?_⟩
  rcases (hmain a a).mp hc with ⟨p, _, _, _, _, _, _, _, _, hne⟩
  exact hne rfl

/-- Witness for C3 on the concrete deadlocked configuration. -/
theorem claim_C3_wait_for_graph_witness :
    buildWFG deadlockProcsW deadlockResW = some cyclicGraphW ∧
    (∀ p ∈ deadlockProcsW, p.current_request ≠ some "") ∧
    (∀ r ∈ deadlockResW, r.held_by ≠ some "") ∧
    ((∀ a b, Edge cyclicGraphW a b ↔
      ∃ p ∈ deadlockProcsW, p.pid = a ∧ p.state = .BLOCKED ∧
        ∃ req, p.current_request = some req ∧
          ∃ res, findRes deadlockResW req = some res ∧
            res.held_by = some b ∧ b ≠ a) ∧
     (∀ a, ¬ Edge cyclicGraphW a a)) :=
  ⟨by decide, by decide, by decide,
   claim_C3_wait_for_graph deadlockProcsW deadlockResW cyclicGraphW
     (by decide) (by decide) (by decide)⟩

/-- C9.  Retry-protocol timeout handling: every timed-out iteration bumps
the retry counter by exactly one, releases that iteration's acquisitions in
reverse order, and sleeps `hold_time/2` plus a value drawn from
`uniform(0, hold_time/2)` by the per-worker PRNG stream (`random.Random(name)`,
abstracted as `d`); the `i`-th backoff depends only on the stream and `i`,
not on the timeout oracle, so for a fixed name the backoff sequence is
deterministic. -/
theorem claim_C9_retry_backoff (k : Nat) (hold : ℚ) (T T' : Nat → Option Nat)
    (d : Nat → ℚ) (fuel i : Nat) (it : RetryIter)
    (hget : (retryTrace k hold T d fuel).get? i = some it)
    (hd0 : 0 ≤ d i) (hd1 : d i < 1) (hhold : 0 ≤ hold) :
    (it.timedOut = true →
      it.retriesDelta = 1 ∧
      it.releasedIdx = it.acquiredIdx.reverse ∧
      it.backoff = some (hold / 2 + uniform 0 (hold / 2) (d i)) ∧
      ∃ u, it.backoff = some (hold / 2 + u) ∧ 0 ≤ u ∧ u ≤ hold / 2) ∧
    (it.timedOut = false →
      it.retriesDelta = 0 ∧
      it.releasedIdx = it.acquiredIdx.reverse ∧
      it.backoff = none) ∧
    (∀ it', (retryTrace k hold T' d fuel).get? i = some it' →
      it'.timedOut = true → it.timedOut = true → it'.backoff = it.backoff) := by
  have hit := retryTraceAux_get? fuel 0 i it hget
  have hzero : 0 + i = i := by omega
  rw [hzero] at hit
  refine ⟨?_, ?_, ?_⟩
  · intro htime
    subst hit
    cases hT : T i with
    | none => rw [hT] at htime; simp [retryIterTrace] at htime
    | some j =>
      refine ⟨rfl, rfl, rfl, (hold / 2) * d i, ?_, ?_, ?_⟩
      · simp [retryIterTrace, uniform]
      · have h2 : (0 : ℚ) ≤ hold / 2 := by linarith
        exact mul_nonneg h2 hd0
      · have h2 : (0 : ℚ) ≤ hold / 2 := by linarith
        calc hold / 2 * d i ≤ hold / 2 * 1 := by
              exact mul_le_mul_of_nonneg_left (le_of_lt hd1) h2
          _ = hold / 2 := by ring
  · intro htime
    subst hit
    cases hT : T i with
    | some j => rw [hT] at htime; simp [retryIterTrace] at htime
    | none => exact ⟨rfl, rfl, rfl⟩
  · intro it' hget' ht' ht
    have hit' := retryTraceAux_get? fuel 0 i it' hget'
    rw [hzero] at hit'
    subst hit hit'
    cases hT : T i with
    | none => rw [hT] at ht; simp [retryIterTrace] at ht
    | some j =>
      cases hT' : T' i with
      | none => rw [hT'] at ht'; simp [retryIterTrace] at ht'
      | some j' => rfl

/-- Witness for C9 at a concrete timed-out iteration. -/
theorem claim_C9_retry_backoff_witness :
    (retryTrace 2 1 (fun _ => some 1) (fun _ => 1/2) 1).get? 0 =
      some { acquiredIdx := [0], releasedIdx := [0], timedOut := true,
             retriesDelta := 1, backoff := some (3/4) } ∧
    ((0 : ℚ) ≤ 1/2) ∧ ((1 : ℚ)/2 < 1) ∧ ((0 : ℚ) ≤ 1) ∧
    (({ acquiredIdx := [0], releasedIdx := [0], timedOut := true,
        retriesDelta := 1, backoff := some (3/4) } : RetryIter).timedOut = true →
      ({ acquiredIdx := [0], releasedIdx := [0], timedOut := true,
         retriesDelta := 1, backoff := some (3/4) } : RetryIter).retriesDelta = 1 ∧
      ({ acquiredIdx := [0], releasedIdx := [0], timedOut := true,
         retriesDelta := 1, backoff := some (3/4) } : RetryIter).releasedIdx =
        ({ acquiredIdx := [0], releasedIdx := [0], timedOut := true,
           retriesDelta := 1, backoff := some (3/4) } : RetryIter).acquiredIdx.reverse ∧
      ({ acquiredIdx := [0], releasedIdx := [0], timedOut := true,
         retriesDelta := 1, backoff := some (3/4) } : RetryIter).backoff =
        some ((1 : ℚ) / 2 + uniform 0 ((1 : ℚ) / 2) (1/2)) ∧
      ∃ u, ({ acquiredIdx := [0], releasedIdx := [0], timedOut := true,
              retriesDelta := 1, backoff := some (3/4) } : RetryIter).backoff =
          some ((1 : ℚ) / 2 + u) ∧ 0 ≤ u ∧ u ≤ (1 : ℚ) / 2) := by
  have hg : (retryTrace 2 1 (fun _ => some 1) (fun _ => 1/2) 1).get? 0 =
      some { acquiredIdx := [0], releasedIdx := [0], timedOut := true,
             retriesDelta := 1, backoff := some (3/4) } := by
    simp [retryTrace, retryTraceAux, retryIterTrace, uniform, List.range]
    norm_num [List.range.loop]
  refine ⟨hg, by norm_num, by norm_num, by norm_num, ?_⟩
  exact (claim_C9_retry_backoff 2 1 (fun _ => some 1) (fun _ => some 1)
    (fun _ => 1/2) 1 0 _ hg (by norm_num) (by norm_num) (by norm_num)).1

/-- C7.  Lock-manager holding invariant: from an all-free initial state over
processes with distinct pids (and a well-formed resource dictionary), after
any sequence of `request`/`release_all` calls, every resource is held by
zero or one process, and `held_by = p.pid` holds exactly when the resource's
id is in `p`'s held set. -/
theorem claim_C7_lock_holding (s0 s' : SimState) (ops : List LMOp)
    (hpids : (s0.processes.map (fun p => p.pid)).Nodup)
    (hrids : (s0.resources.map (fun r => r.rid)).Nodup)
    (hfree : ∀ r ∈ s0.resources, r.held_by = none)
    (hheld : ∀ p ∈ s0.processes, p.held_resources = [])
    (hrun : lmRun s0 ops = some s') :
    ∀ r ∈ s'.resources,
      (∀ p ∈ s'.processes,
        (r.held_by = some p.pid ↔ r.rid ∈ p.held_resources)) ∧
      (r.held_by = none ∨
        ∃ p ∈ s'.processes, r.held_by = some p.pid ∧
          ∀ q ∈ s'.processes, r.rid ∈ q.held_resources → q = p) := by
  have hinv0 : LMInv s0 := by
    refine ⟨hpids, hrids, ?_, ?_, ?_⟩
    · intro r hr p hp
      rw [hfree r hr, hheld p hp]
      simp
    · intro r hr q hq
      rw [hfree r hr] at hq
      exact Option.noConfusion hq
    · intro p hp rid hrid
      rw [hheld p hp] at hrid
      simp at hrid
  obtain ⟨hndp, hndr, hiff, hhold, _⟩ := lmRun_inv hinv0 hrun
  intro r hr
  refine ⟨fun p hp => hiff r hr p hp, ?_⟩
  cases hb : r.held_by with
  | none => exact Or.inl rfl
  | some q =>
    rcases hhold r hr q hb with ⟨p, hp, hppid⟩
    refine Or.inr ⟨p, hp, by rw [hppid], ?_⟩
    intro q' hq' hq'held
    have hq'pid : r.held_by = some q'.pid := (hiff r hr q' hq').mpr hq'held
    rw [hb] at hq'pid
    have : q = q'.pid := by simpa using hq'pid
    exact process_unique hndp hq' hp (by rw [← this, hppid])

/-- Witness for C7 on a single acquisition. -/
theorem claim_C7_lock_holding_witness :
    lmRun lmS0W lmOpsW = some lmS1W ∧
    ∀ r ∈ lmS1W.resources,
      (∀ p ∈ lmS1W.processes,
        (r.held_by = some p.pid ↔ r.rid ∈ p.held_resources)) ∧
      (r.held_by = none ∨
        ∃ p ∈ lmS1W.processes, r.held_by = some p.pid ∧
          ∀ q ∈ lmS1W.processes, r.rid ∈ q.held_resources → q = p) :=
  ⟨by decide,
   claim_C7_lock_holding lmS0W lmS1W lmOpsW (by decide) (by decide)
     (by decide) (by decide) (by decide)⟩

/-- C8.  Simulator termination: for every initial configuration and every
`max_steps`, the run loop executes at most `max_steps` steps (and, being a
total function, terminates); it stops after the first step whose stop
condition — the detector reported a deadlock, or every process is
`FINISHED` — holds, or when `max_steps` steps have been executed, whichever
comes first.  On a well-formed configuration (no `KeyError`) the run always
produces a result. -/
theorem claim_C8_simulator_termination (ordered : Bool) (s : SimState)
    (maxSteps : Nat) :
    (∀ sf k, runSim ordered s maxSteps = some (sf, k) →
      k ≤ maxSteps ∧
      trajSim ordered s k = some sf ∧
      (∀ i, i + 1 < k → stopAfter ordered s i = some false) ∧
      (k < maxSteps → 0 < k ∧ stopAfter ordered s (k - 1) = some true)) ∧
    (WfState s → (runSim ordered s maxSteps).isSome = true) :=
  ⟨fun sf k h => runSim_spec ordered maxSteps s sf k h,
   fun hwf => runSim_isSome maxSteps s hwf⟩

/-- Witness for C8 on a two-process circular-wait demo in naive mode. -/
theorem claim_C8_simulator_termination_witness :
    runSim false demoW 3 = some (demoFinalW, 2) ∧
    WfState demoW ∧
    (2 ≤ 3 ∧
      trajSim false demoW 2 = some demoFinalW ∧
      (∀ i, i + 1 < 2 → stopAfter false demoW i = some false) ∧
      (2 < 3 → 0 < 2 ∧ stopAfter false demoW (2 - 1) = some true)) ∧
    (runSim false demoW 3).isSome = true := by
  have hrun : runSim false demoW 3 = some (demoFinalW, 2) := by decide
  exact ⟨hrun, by decide,
    (claim_C8_simulator_termination false demoW 3).1 demoFinalW 2 hrun,
    (claim_C8_simulator_termination false demoW 3).2 (by decide)⟩

/-- C10.  Detector purity: the detector as invoked by `Simulator.step` is a
pure function of the processes and resources — the state it is handed comes
back unchanged (its Python body performs no writes to them, which the
state-passing wrapper `detectDeadlockS` makes explicit) — and a step whose
detector reports no deadlock introduces no `DEADLOCKED` state: transitions
to `DEADLOCKED` happen only in the simulator's deadlock branch. -/
theorem claim_C10_detector_frame :
    (∀ s r s', detectDeadlockS s = some (r, s') → s' = s) ∧
    (∀ (ordered : Bool) (s s' : SimState),
      stepSim ordered s = some (s', false) →
      ∀ i p', s'.processes.get? i = some p' → p'.state = .DEADLOCKED →
        ∃ p, s.processes.get? i = some p ∧ p.state = .DEADLOCKED) := by
  constructor
  · intro s r s' h
    rw [detectDeadlockS] at h
    cases hd : detect_deadlock s.processes s.resources with
    | none => rw [hd] at h; exact Option.noConfusion h
    | some r0 =>
      rw [hd] at h
      simp only [Option.map_some', Option.some.injEq, Prod.mk.injEq] at h
      exact h.2.symm
  · intro ordered s s' h i p' hi hd
    rw [stepSim] at h
    cases h1 : sweepM (stepProcessAt ordered) s (List.range s.processes.length) with
    | none => rw [h1] at h; exact Option.noConfusion h
    | some s1 =>
      rw [h1] at h
      dsimp only at h
      cases h2 : sweepM completeSweepAt s1 (List.range s1.processes.length) with
      | none => rw [h2] at h; exact Option.noConfusion h
      | some s2 =>
        rw [h2] at h
        dsimp only at h
        cases hdet : detect_deadlock s2.processes s2.resources with
        | none => rw [hdet] at h; exact Option.noConfusion h
        | some r =>
          rw [hdet] at h
          dsimp only at h
          by_cases hr : r.1 = true
          · rw [if_pos hr] at h
            simp at h
          · rw [if_neg hr] at h
            simp only [Option.some.injEq, Prod.mk.injEq] at h
            obtain ⟨rfl, _⟩ := h
            rcases sweepM_no_new_deadlock
              (fun s i s' hs => completeSweepAt_no_new_deadlock hs)
              (List.range s1.processes.length) s1 s2 h2 i p' hi hd with
              ⟨p1, hp1, hp1d⟩
            exact sweepM_no_new_deadlock
              (fun s i s' hs => stepProcessAt_no_new_deadlock hs)
              (List.range s.processes.length) s s1 h1 i p1 hp1 hp1d

/-- Witness for C10 on the demo configuration. -/
theorem claim_C10_detector_frame_witness :
    detectDeadlockS demoFinalW = some ((false, [], []), demoFinalW) ∧
    (∀ r s', detectDeadlockS demoFinalW = some (r, s') → s' = demoFinalW) ∧
    stepSim false demoW = some (demoMidW, false) ∧
    (∀ i p', demoMidW.processes.get? i = some p' → p'.state = .DEADLOCKED →
      ∃ p, demoW.processes.get? i = some p ∧ p.state = .DEADLOCKED) :=
  ⟨by decide,
   fun r s' h => claim_C10_detector_frame.1 demoFinalW r s' h,
   by decide,
   claim_C10_detector_frame.2 false demoW demoMidW (by decide)⟩

end DeadlockSim
